import Mathlib

/-!
Shallow embedding of the USDC transfer indexer
(`src/indexer/indexer.module.ts`) and of the store schema
(`prisma/migrations/.../migration.sql`), with theorems settling the
specification claims about reorg rollback, backward chunked scanning,
retry/backoff, duplicate handling and size-bounded retention.

Modelling conventions:
* JavaScript numbers holding block heights and counters are modelled as `Int`
  (negative intermediate values such as `latestBlock - CONFIRMATIONS` are
  representable, exactly as in the source).
* The remote node (`ethers.JsonRpcProvider`) is a pure value `Chain`:
  `getBlockNumber` is `Chain.head`, `getBlock` is `Chain.blockAt`, and
  `getLogs` filters the fixed contract/topic log list by block range.
* The Prisma store is a list of rows plus a surrogate-id counter; the unique
  index on `(txHash, logIndex)` is reflected by `createMany skipDuplicates`
  inserting a row only when its natural key is absent.
* `Math.random()` is an explicit stream `rand : Nat -> Rat` of draws in `[0,1)`.
* Prisma `findMany (orderBy block asc) (take n)` performs `ORDER BY "block"`
  on a non-unique column: the relative order of equal-`block` rows is not
  specified by SQL.  Retention is therefore parameterised by the arrangement
  the database returns, constrained to be some block-sorted permutation of
  the rows (`admissibleArr`).
-/

namespace Usdc

/-- Block metadata as returned by `provider.getBlock`: `hash` and `timestamp`. -/
structure BlockInfo where
  hash : String
  timestamp : Int
deriving DecidableEq, Repr

/-- A raw event log as returned by `provider.getLogs`.  `parsed` holds the
result of `usdc.interface.parseLog` applied to the log's topics/data:
`some (from, to, value)` on success, `none` when parsing throws. -/
structure Log where
  transactionHash : String
  index : Nat
  blockNumber : Int
  parsed : Option (String × String × Nat)
deriving DecidableEq, Repr

/-- Natural key of a log: `(transactionHash, logIndex)`. -/
def Log.key (l : Log) : String × Nat := (l.transactionHash, l.index)

/-- The chain node seen through the JSON-RPC provider: current head height,
block lookup by number, and the full list of Transfer logs of the indexed
contract (the fixed `address`/`topics` filter of `fetchLogs`). -/
structure Chain where
  head : Int
  blockAt : Int → Option BlockInfo
  logs : List Log

/-- `provider.getLogs { address, topics, fromBlock, toBlock }`: the contract's
Transfer logs whose `blockNumber` lies in `[fromBlock, toBlock]`. -/
def getLogs (c : Chain) (fromBlock toBlock : Int) : List Log :=
  c.logs.filter (fun l => decide (fromBlock ≤ l.blockNumber) && decide (l.blockNumber ≤ toBlock))

/-- The column payload of a `Transfer` row as built by the scan
(`txHash, logIndex, block, blockHash, from, to, amount, timestamp`).
`from`/`to` are spelled `fromAddr`/`toAddr` (`from` is a Lean keyword). -/
structure TransferData where
  txHash : String
  logIndex : Nat
  block : Int
  blockHash : String
  fromAddr : String
  toAddr : String
  amount : Nat
  timestamp : Int
deriving DecidableEq, Repr

/-- Natural key `(txHash, logIndex)` — the unique index
`Transfer_txHash_logIndex_key` of the migration. -/
def TransferData.key (d : TransferData) : String × Nat := (d.txHash, d.logIndex)

/-- A stored `Transfer` row: store-assigned surrogate `id` plus the payload
columns. -/
structure Transfer where
  id : Nat
  data : TransferData
deriving DecidableEq, Repr

/-- The `Transfer` table: rows plus the id-assignment counter. -/
structure Store where
  rows : List Transfer
  nextId : Nat
deriving DecidableEq, Repr

/-- The body of the per-log `try` block of `fetchLogs`: `parseLog`, then
`getBlock` for the log's block (`throw` when the block is not found), then
assembly of the row payload.  `timestamp` is `new Date(block.timestamp * 1000)`. -/
def decodeOneE (c : Chain) (l : Log) : Except String TransferData :=
  match l.parsed with
  | none => .error "parseLog failed"
  | some (f, t, v) =>
    match c.blockAt l.blockNumber with
    | none => .error "block not found"
    | some b =>
      .ok { txHash := l.transactionHash, logIndex := l.index, block := l.blockNumber,
            blockHash := b.hash, fromAddr := f, toAddr := t, amount := v,
            timestamp := b.timestamp * 1000 }

/-- The per-log `try ... catch (err) { return null }`: a failing log yields
`none` (it is dropped from the chunk), never an error. -/
def decodeOne (c : Chain) (l : Log) : Option TransferData :=
  match decodeOneE c l with
  | .ok d => some d
  | .error _ => none

/-- Does the table contain a row with the given natural key? -/
def Store.hasKey (s : Store) (k : String × Nat) : Bool :=
  s.rows.any (fun r => decide (r.data.key = k))

/-- Insertion of one row by `createMany { skipDuplicates: true }`: a row whose
natural key is already present is skipped, otherwise it is appended with the
next surrogate id. -/
def insertOne (s : Store) (d : TransferData) : Store :=
  if s.hasKey d.key then s
  else { rows := s.rows ++ [⟨s.nextId, d⟩], nextId := s.nextId + 1 }

/-- `prisma.transfer.createMany { data, skipDuplicates: true }`. -/
def createManySkipDup (s : Store) (ds : List TransferData) : Store :=
  ds.foldl insertOne s

/-- The row selected by `findFirst { orderBy: { block: 'desc' } }`: a row of
maximal `block` (among equal maxima the earliest row in table order). -/
def pickFrontier : List Transfer → Option Transfer
  | [] => none
  | r :: rs =>
    match pickFrontier rs with
    | none => some r
    | some b => if b.data.block > r.data.block then some b else some r

/-- `getLastIndexedBlock`: the frontier row, if any. -/
def getLastIndexedBlock (s : Store) : Option Transfer :=
  pickFrontier s.rows

/-- `(await this.getLastIndexedBlock())?.block || 0`. -/
def lastIndexedBlockNum (s : Store) : Int :=
  match getLastIndexedBlock s with
  | none => 0
  | some t => t.data.block

/-- `deleteMany { where: { block: { gte: b } } }`. -/
def deleteWhereBlockGte (s : Store) (b : Int) : Store :=
  { s with rows := s.rows.filter (fun r => decide (r.data.block < b)) }

/-- `handleReorgs`: read the frontier; if none, no-op; otherwise fetch that
block from the chain and, when it is missing or its hash differs from the
stored one, delete every row with `block >= frontier.block`. -/
def handleReorgs (c : Chain) (s : Store) : Store :=
  match getLastIndexedBlock s with
  | none => s
  | some last =>
    match c.blockAt last.data.block with
    | none => deleteWhereBlockGte s last.data.block
    | some b =>
      if b.hash ≠ last.data.blockHash then deleteWhereBlockGte s last.data.block else s

/-- One iteration of the `fetchLogs` while-loop, recorded for the proofs:
the window it fetched and the chunk's successfully decoded records
(`validTransfers`). -/
structure ChunkRec where
  fromBlock : Int
  toBlock : Int
  decoded : List TransferData
deriving DecidableEq, Repr

/-- `Math.max(lastIndexed + 1, toBlock - CHUNK_SIZE + 1)` — the lower window
bound, computed by this same formula both at initialisation and at each
window advance of `fetchLogs`. -/
def windowFrom (chunkSize lastIndexed toBlock : Int) : Int :=
  max (lastIndexed + 1) (toBlock - chunkSize + 1)

/-- `validTransfers` of one chunk: the window's logs, each decoded by the
per-log `try`/`catch` (`decodeOne`), `null` results filtered out. -/
def chunkDecoded (c : Chain) (fromBlock toBlock : Int) : List TransferData :=
  (getLogs c fromBlock toBlock).filterMap (decodeOne c)

/-- The `while (transferCount < MAX_INDEXER_SIZE && fromBlock <= toBlock)`
loop of `fetchLogs`.  Returns the final `transferCount`, the final store, and
the list of processed chunks. -/
def scanLoop (c : Chain) (chunkSize maxSize lastIndexed : Int)
    (transferCount : Int) (toBlock : Int) (s : Store) : Int × Store × List ChunkRec :=
  if h : transferCount < maxSize ∧ windowFrom chunkSize lastIndexed toBlock ≤ toBlock then
    let rest := scanLoop c chunkSize maxSize lastIndexed
      (transferCount + (chunkDecoded c (windowFrom chunkSize lastIndexed toBlock) toBlock).length)
      (windowFrom chunkSize lastIndexed toBlock - 1)
      (createManySkipDup s (chunkDecoded c (windowFrom chunkSize lastIndexed toBlock) toBlock))
    (rest.1, rest.2.1,
      ⟨windowFrom chunkSize lastIndexed toBlock, toBlock,
        chunkDecoded c (windowFrom chunkSize lastIndexed toBlock) toBlock⟩ :: rest.2.2)
  else
    (transferCount, s, [])
termination_by (toBlock + 1 - lastIndexed).toNat
decreasing_by
  have h1 : lastIndexed + 1 ≤ windowFrom chunkSize lastIndexed toBlock := le_max_left _ _
  omega

/-- Configuration values read in `fetchLogs` / `deleteOldTransfers`:
`MAX_BLOCKS` (chunk size), `MAX_INDEXER_SIZE` (retention cap, reused as the
per-cycle quota) and `CONFIRMATIONS`. -/
structure Cfg where
  chunkSize : Int
  maxIndexerSize : Int
  confirmations : Int
deriving Repr

/-- `fetchLogs`: read the frontier block (`|| 0`), compute
`safeBlock = latestBlock - CONFIRMATIONS`, and run the backward scan loop
starting at `toBlock = safeBlock` with `transferCount = 0`. -/
def fetchLogs (cfg : Cfg) (c : Chain) (s : Store) : Int × Store × List ChunkRec :=
  let lastIndexed := lastIndexedBlockNum s
  let safeBlock := c.head - cfg.confirmations
  scanLoop c cfg.chunkSize cfg.maxIndexerSize lastIndexed 0 safeBlock s

/-- `deleteMany { where: { id: { in: ids } } }`. -/
def deleteByIds (s : Store) (ids : List Nat) : Store :=
  { s with rows := s.rows.filter (fun r => !(decide (r.id ∈ ids))) }

/-- `deleteOldTransfers`, parameterised by the arrangement `arr` the database
returns for `findMany { orderBy: { block: 'asc' } }` (see module comment):
when `count - MAX_INDEXER_SIZE > 0`, delete the ids of the first `excess`
rows of that arrangement. -/
def deleteOldTransfersWith (maxSize : Int) (s : Store) (arr : List Transfer) : Store :=
  let excess : Int := (s.rows.length : Int) - maxSize
  if excess > 0 then deleteByIds s ((arr.take excess.toNat).map (fun r => r.id)) else s

/-- Adjacent block-sortedness of an arrangement. -/
def sortedByBlock : List Transfer → Bool
  | [] => true
  | [_] => true
  | a :: b :: t => decide (a.data.block ≤ b.data.block) && sortedByBlock (b :: t)

/-- The arrangements `ORDER BY "block" ASC` may return: some block-sorted
permutation of the table's rows. -/
def admissibleArr (s : Store) (arr : List Transfer) : Prop :=
  arr.Perm s.rows ∧ sortedByBlock arr = true

/-- Ordering `(block, id)` — the tie-break **the specification describes**
("ties broken by store-assigned id for determinism").  Used only to compare
the code's retention against the spec's words. -/
def specOrder (a b : Transfer) : Bool :=
  decide (a.data.block < b.data.block) ||
    (decide (a.data.block = b.data.block) && decide (a.id ≤ b.id))

/-- Insertion into a `specOrder`-sorted list. -/
def insertBy (r : Transfer) : List Transfer → List Transfer
  | [] => [r]
  | x :: xs => if specOrder r x then r :: x :: xs else x :: insertBy r xs

/-- Insertion sort by `specOrder`. -/
def sortSpec : List Transfer → List Transfer
  | [] => []
  | x :: xs => insertBy x (sortSpec xs)

/-- Retention as **the specification words it**: the `excess` lowest-`block`
rows, ties broken by store-assigned id. -/
def deleteOldTransfersSpec (maxSize : Int) (s : Store) : Store :=
  let excess : Int := (s.rows.length : Int) - maxSize
  if excess > 0 then
    deleteByIds s (((sortSpec s.rows).take excess.toNat).map (fun r => r.id))
  else s

/-- The store after reorg handling and the scan of one cycle
(`startIndexer` up to, but not including, `deleteOldTransfers`). -/
def scanStore (cfg : Cfg) (c : Chain) (s : Store) : Store :=
  (fetchLogs cfg c (handleReorgs c s)).2.1

/-- One full `startIndexer` cycle:
`handleReorgs` then `fetchLogs` then `deleteOldTransfers` (the latter fed the
database arrangement `arr`). -/
def runCycleWith (cfg : Cfg) (c : Chain) (s : Store) (arr : List Transfer) : Store :=
  deleteOldTransfersWith cfg.maxIndexerSize (scanStore cfg c s) arr

/-- `fetchWithRetry`: try the call; on success return immediately; on failure
with `retries = 0` rethrow, otherwise double the delay, wait
`backoff + Math.random() * 300`, and recurse with the doubled delay.
`attempts k` is the outcome of the `k`-th call of `fn` (0-indexed), `rand k`
the `Math.random()` draw after the `k`-th failure.  Returns the list of
imposed wait times together with the final outcome. -/
def fetchWithRetry {E A : Type} (attempts : Nat → Except E A) (rand : Nat → ℚ) :
    Nat → Nat → ℚ → List ℚ × Except E A
  | k, retries, delay =>
    match attempts k with
    | .ok a => ([], .ok a)
    | .error e =>
      match retries with
      | 0 => ([], .error e)
      | r + 1 =>
        let backoff := delay * 2
        let jitter := rand k * 300
        let rest := fetchWithRetry attempts rand (k + 1) r backoff
        ((backoff + jitter) :: rest.1, rest.2)

/-- A wrapped call with the implementation's defaults: `retries = 5`,
`delay = 1000` ms. -/
def retryCall {E A : Type} (attempts : Nat → Except E A) (rand : Nat → ℚ) :
    List ℚ × Except E A :=
  fetchWithRetry attempts rand 0 5 1000

/-- The contract's logs carry pairwise-distinct natural keys (on a real chain
`(txHash, logIndex)` identifies an event). -/
def ChainWf (c : Chain) : Prop := (c.logs.map Log.key).Nodup

/-- A row whose payload is the decoding of one of the chain's current logs. -/
def Derived (c : Chain) (r : Transfer) : Prop :=
  ∃ l ∈ c.logs, decodeOne c l = some r.data

/-- Every stored row is derived from the chain's current log set (the store
agrees with the unchanged chain view). -/
def AllDerived (c : Chain) (s : Store) : Prop :=
  ∀ r ∈ s.rows, Derived c r

/-- The unique-index invariant: stored natural keys are pairwise distinct. -/
def KeysOk (s : Store) : Prop := (s.rows.map (fun r => r.data.key)).Nodup

/-- Surrogate ids are pairwise distinct and below the id counter. -/
def IdsOk (s : Store) : Prop :=
  (s.rows.map (fun r => r.id)).Nodup ∧ ∀ r ∈ s.rows, r.id < s.nextId

/-! ### Store basics -/

theorem hasKey_true_iff (s : Store) (k : String × Nat) :
    s.hasKey k = true ↔ ∃ r ∈ s.rows, r.data.key = k := by
  simp [Store.hasKey]

theorem hasKey_false_iff (s : Store) (k : String × Nat) :
    s.hasKey k = false ↔ ∀ r ∈ s.rows, r.data.key ≠ k := by
  simp [Store.hasKey]

theorem insertOne_of_hasKey {s : Store} {d : TransferData} (h : s.hasKey d.key = true) :
    insertOne s d = s := by
  simp [insertOne, h]

theorem insertOne_of_fresh {s : Store} {d : TransferData} (h : ¬ s.hasKey d.key = true) :
    insertOne s d = ⟨s.rows ++ [⟨s.nextId, d⟩], s.nextId + 1⟩ := by
  simp [insertOne, h]

theorem createMany_nil (s : Store) : createManySkipDup s [] = s := rfl

theorem createMany_cons (s : Store) (d : TransferData) (ds : List TransferData) :
    createManySkipDup s (d :: ds) = createManySkipDup (insertOne s d) ds := rfl

/-- `createMany skipDuplicates` only appends rows, and each appended row's
payload is one of the batch records. -/
theorem createMany_rows : ∀ (ds : List TransferData) (s : Store),
    ∃ tail, (createManySkipDup s ds).rows = s.rows ++ tail ∧ ∀ r ∈ tail, r.data ∈ ds := by
  intro ds
  induction ds with
  | nil =>
    intro s
    exact ⟨[], by simp [createMany_nil], fun r hr => absurd hr (List.not_mem_nil r)⟩
  | cons d t ih =>
    intro s
    rw [createMany_cons]
    obtain ⟨tail, h1, h2⟩ := ih (insertOne s d)
    by_cases hk : s.hasKey d.key = true
    · rw [insertOne_of_hasKey hk] at h1 ⊢
      exact ⟨tail, h1, fun r hr => List.mem_cons_of_mem d (h2 r hr)⟩
    · rw [insertOne_of_fresh hk] at h1 ⊢
      refine ⟨⟨s.nextId, d⟩ :: tail, ?_, ?_⟩
      · simpa using h1
      · intro r hr
        rcases List.mem_cons.mp hr with h | h
        · subst h; exact List.mem_cons_self _ _
        · exact List.mem_cons_of_mem d (h2 r h)

theorem insertOne_hasKey_self (s : Store) (d : TransferData) :
    (insertOne s d).hasKey d.key = true := by
  by_cases hk : s.hasKey d.key = true
  · rw [insertOne_of_hasKey hk]; exact hk
  · rw [insertOne_of_fresh hk]
    simp [Store.hasKey]

theorem insertOne_hasKey_mono {s : Store} {k : String × Nat} (d : TransferData)
    (h : s.hasKey k = true) : (insertOne s d).hasKey k = true := by
  by_cases hk : s.hasKey d.key = true
  · rw [insertOne_of_hasKey hk]; exact h
  · rw [insertOne_of_fresh hk]
    rcases (hasKey_true_iff s k).mp h with ⟨r, hr, hkey⟩
    exact (hasKey_true_iff _ k).mpr ⟨r, by simp [hr], hkey⟩

theorem createMany_hasKey_mono : ∀ (ds : List TransferData) (s : Store) (k : String × Nat),
    s.hasKey k = true → (createManySkipDup s ds).hasKey k = true := by
  intro ds
  induction ds with
  | nil => intro s k h; exact h
  | cons d t ih =>
    intro s k h
    rw [createMany_cons]
    exact ih _ k (insertOne_hasKey_mono d h)

theorem createMany_hasKey_of_mem : ∀ (ds : List TransferData) (s : Store) (d : TransferData),
    d ∈ ds → (createManySkipDup s ds).hasKey d.key = true := by
  intro ds
  induction ds with
  | nil => intro s d h; exact absurd h (List.not_mem_nil d)
  | cons x t ih =>
    intro s d h
    rw [createMany_cons]
    rcases List.mem_cons.mp h with rfl | h
    · exact createMany_hasKey_mono t _ _ (insertOne_hasKey_self s d)
    · exact ih _ d h

theorem insertOne_keysOk {s : Store} (d : TransferData) (h : KeysOk s) :
    KeysOk (insertOne s d) := by
  by_cases hk : s.hasKey d.key = true
  · rw [insertOne_of_hasKey hk]; exact h
  · rw [insertOne_of_fresh hk]
    have hfresh : ∀ r ∈ s.rows, r.data.key ≠ d.key :=
      (hasKey_false_iff s d.key).mp (by simpa using hk)
    unfold KeysOk at h ⊢
    simp only [List.map_append, List.map_cons, List.map_nil]
    rw [List.nodup_append]
    refine ⟨h, List.nodup_singleton _, ?_⟩
    intro k hk1 hk2
    simp only [List.mem_singleton] at hk2
    obtain ⟨r, hr, hkey⟩ := List.mem_map.mp hk1
    exact hfresh r hr (by rw [hkey, hk2])

theorem createMany_keysOk : ∀ (ds : List TransferData) (s : Store),
    KeysOk s → KeysOk (createManySkipDup s ds) := by
  intro ds
  induction ds with
  | nil => intro s h; exact h
  | cons d t ih => intro s h; exact ih _ (insertOne_keysOk d h)

theorem insertOne_idsOk {s : Store} (d : TransferData) (h : IdsOk s) :
    IdsOk (insertOne s d) := by
  obtain ⟨hnd, hlt⟩ := h
  by_cases hk : s.hasKey d.key = true
  · rw [insertOne_of_hasKey hk]; exact ⟨hnd, hlt⟩
  · rw [insertOne_of_fresh hk]
    constructor
    · simp only [List.map_append, List.map_cons, List.map_nil]
      rw [List.nodup_append]
      refine ⟨hnd, List.nodup_singleton _, ?_⟩
      intro i hi1 hi2
      simp only [List.mem_singleton] at hi2
      obtain ⟨r, hr, hid⟩ := List.mem_map.mp hi1
      have := hlt r hr
      omega
    · intro r hr
      rcases List.mem_append.mp hr with h | h
      · have := hlt r h
        show r.id < s.nextId + 1
        omega
      · simp only [List.mem_singleton] at h
        subst h
        show s.nextId < s.nextId + 1
        omega

theorem createMany_idsOk : ∀ (ds : List TransferData) (s : Store),
    IdsOk s → IdsOk (createManySkipDup s ds) := by
  intro ds
  induction ds with
  | nil => intro s h; exact h
  | cons d t ih => intro s h; exact ih _ (insertOne_idsOk d h)

theorem filter_keysOk (s : Store) (p : Transfer → Bool) (h : KeysOk s) :
    KeysOk { s with rows := s.rows.filter p } := by
  unfold KeysOk at h ⊢
  exact ((List.filter_sublist s.rows).map _).nodup h

theorem filter_idsOk (s : Store) (p : Transfer → Bool) (h : IdsOk s) :
    IdsOk { s with rows := s.rows.filter p } := by
  obtain ⟨hnd, hlt⟩ := h
  exact ⟨((List.filter_sublist s.rows).map _).nodup hnd,
    fun r hr => hlt r (List.mem_of_mem_filter hr)⟩

/-! ### Frontier lemmas -/

theorem pickFrontier_eq_none : ∀ l : List Transfer, pickFrontier l = none ↔ l = [] := by
  intro l
  cases l with
  | nil => simp [pickFrontier]
  | cons r rs =>
    simp only [pickFrontier]
    constructor
    · intro h
      cases hp : pickFrontier rs with
      | none => rw [hp] at h; simp at h
      | some b => rw [hp] at h; by_cases hb : b.data.block > r.data.block <;> simp [hb] at h
    · intro h; exact absurd h (List.cons_ne_nil r rs)

theorem pickFrontier_mem : ∀ (l : List Transfer) (t : Transfer),
    pickFrontier l = some t → t ∈ l := by
  intro l
  induction l with
  | nil => intro t h; simp [pickFrontier] at h
  | cons r rs ih =>
    intro t h
    simp only [pickFrontier] at h
    cases hp : pickFrontier rs with
    | none => rw [hp] at h; simp at h; simp [h]
    | some b =>
      rw [hp] at h
      by_cases hb : b.data.block > r.data.block
      · simp [hb] at h
        exact List.mem_cons_of_mem r (h ▸ ih b hp)
      · simp [hb] at h
        simp [h]

theorem pickFrontier_ub : ∀ (l : List Transfer) (t : Transfer),
    pickFrontier l = some t → ∀ r ∈ l, r.data.block ≤ t.data.block := by
  intro l
  induction l with
  | nil => intro t h; simp [pickFrontier] at h
  | cons r rs ih =>
    intro t h x hx
    simp only [pickFrontier] at h
    cases hp : pickFrontier rs with
    | none =>
      rw [hp] at h
      simp only [Option.some.injEq] at h
      have : rs = [] := (pickFrontier_eq_none rs).mp hp
      subst this
      simp only [List.mem_singleton] at hx
      subst hx; subst h; exact le_refl _
    | some b =>
      rw [hp] at h
      by_cases hb : b.data.block > r.data.block
      · simp only [hb, if_true, Option.some.injEq] at h
        subst h
        rcases List.mem_cons.mp hx with rfl | hx'
        · exact le_of_lt hb
        · exact ih b hp x hx'
      · simp only [hb, if_false, Option.some.injEq] at h
        subst h
        rcases List.mem_cons.mp hx with rfl | hx'
        · exact le_refl _
        · exact le_trans (ih b hp x hx') (by omega)

theorem lastIndexedBlockNum_of_rows_nil {s : Store} (h : s.rows = []) :
    lastIndexedBlockNum s = 0 := by
  unfold lastIndexedBlockNum getLastIndexedBlock
  rw [h]
  rfl

theorem lastIndexedBlockNum_ub (s : Store) : ∀ r ∈ s.rows, r.data.block ≤ lastIndexedBlockNum s := by
  intro r hr
  unfold lastIndexedBlockNum getLastIndexedBlock
  cases hp : pickFrontier s.rows with
  | none =>
    have : s.rows = [] := (pickFrontier_eq_none s.rows).mp hp
    rw [this] at hr
    exact absurd hr (List.not_mem_nil r)
  | some t =>
    show r.data.block ≤ t.data.block
    exact pickFrontier_ub s.rows t hp r hr

theorem lastIndexedBlockNum_eq_of (s : Store) (t : Transfer) (ht : t ∈ s.rows)
    (hub : ∀ r ∈ s.rows, r.data.block ≤ t.data.block) :
    lastIndexedBlockNum s = t.data.block := by
  unfold lastIndexedBlockNum getLastIndexedBlock
  cases hp : pickFrontier s.rows with
  | none =>
    have : s.rows = [] := (pickFrontier_eq_none s.rows).mp hp
    rw [this] at ht
    exact absurd ht (List.not_mem_nil t)
  | some f =>
    have h1 : f.data.block ≤ t.data.block := hub f (pickFrontier_mem s.rows f hp)
    have h2 : t.data.block ≤ f.data.block := pickFrontier_ub s.rows f hp t ht
    show f.data.block = t.data.block
    omega

/-! ### Sortedness of admissible arrangements -/

theorem sortedByBlock_cons_le :
    ∀ (l : List Transfer) (x : Transfer), sortedByBlock (x :: l) = true →
      ∀ y ∈ l, x.data.block ≤ y.data.block := by
  intro l
  induction l with
  | nil => intro x _ y hy; exact absurd hy (List.not_mem_nil y)
  | cons b t ih =>
    intro x hs y hy
    have h1 : x.data.block ≤ b.data.block ∧ sortedByBlock (b :: t) = true := by
      simpa [sortedByBlock] using hs
    rcases List.mem_cons.mp hy with rfl | hy'
    · exact h1.1
    · exact le_trans h1.1 (ih b h1.2 y hy')

theorem sortedByBlock_tail {x : Transfer} {l : List Transfer}
    (h : sortedByBlock (x :: l) = true) : sortedByBlock l = true := by
  cases l with
  | nil => rfl
  | cons b t => exact (by simpa [sortedByBlock] using h : _ ∧ _).2

theorem sortedByBlock_pairwise : ∀ l : List Transfer, sortedByBlock l = true →
    l.Pairwise (fun a b => a.data.block ≤ b.data.block) := by
  intro l
  induction l with
  | nil => intro _; exact List.Pairwise.nil
  | cons x t ih =>
    intro hs
    exact List.Pairwise.cons (sortedByBlock_cons_le t x hs) (ih (sortedByBlock_tail hs))

theorem sortedByBlock_drop : ∀ (n : Nat) (l : List Transfer),
    sortedByBlock l = true → sortedByBlock (l.drop n) = true := by
  intro n
  induction n with
  | zero => intro l h; exact h
  | succ n ih =>
    intro l h
    cases l with
    | nil => rfl
    | cons a t =>
      rw [List.drop_succ_cons]
      exact ih t (sortedByBlock_tail h)

theorem sortedByBlock_getLast_ub : ∀ (l : List Transfer), sortedByBlock l = true →
    ∀ (h : l ≠ []) (x : Transfer), x ∈ l → x.data.block ≤ (l.getLast h).data.block := by
  intro l
  induction l with
  | nil => intro _ h; exact absurd rfl h
  | cons a t ih =>
    intro hs h x hx
    by_cases hte : t = []
    · subst hte
      simp only [List.mem_singleton] at hx
      subst hx
      exact le_refl _
    · rw [List.getLast_cons hte]
      rcases List.mem_cons.mp hx with rfl | hx'
      · exact sortedByBlock_cons_le t x hs (t.getLast hte) (List.getLast_mem hte)
      · exact ih (sortedByBlock_tail hs) hte x hx'

/-! ### Retention lemmas -/

theorem retention_pos {maxSize : Int} {s : Store} (arr : List Transfer)
    (h : (s.rows.length : Int) - maxSize > 0) :
    deleteOldTransfersWith maxSize s arr
      = deleteByIds s ((arr.take ((s.rows.length : Int) - maxSize).toNat).map (fun r => r.id)) := by
  unfold deleteOldTransfersWith
  rw [if_pos h]

theorem retention_nonpos {maxSize : Int} {s : Store} (arr : List Transfer)
    (h : ¬ ((s.rows.length : Int) - maxSize > 0)) :
    deleteOldTransfersWith maxSize s arr = s := by
  unfold deleteOldTransfersWith
  rw [if_neg h]

theorem retention_rows_sublist (maxSize : Int) (s : Store) (arr : List Transfer) :
    (deleteOldTransfersWith maxSize s arr).rows.Sublist s.rows := by
  by_cases h : (s.rows.length : Int) - maxSize > 0
  · rw [retention_pos arr h]
    exact List.filter_sublist s.rows
  · rw [retention_nonpos arr h]

theorem retention_nextId (maxSize : Int) (s : Store) (arr : List Transfer) :
    (deleteOldTransfersWith maxSize s arr).nextId = s.nextId := by
  by_cases h : (s.rows.length : Int) - maxSize > 0
  · rw [retention_pos arr h]; rfl
  · rw [retention_nonpos arr h]

theorem length_filter_not {α : Type} (l : List α) (p : α → Bool) :
    (l.filter (fun x => !(p x))).length = l.length - (l.filter p).length := by
  induction l with
  | nil => rfl
  | cons a t ih =>
    have hle := t.length_filter_le p
    rw [List.filter_cons, List.filter_cons]
    by_cases h : p a = true
    · simp only [h, Bool.not_true, cond_false, cond_true, if_true, if_false,
        Bool.false_eq_true, List.length_cons]
      omega
    · have h' : p a = false := by simpa using h
      simp only [h', Bool.not_false, cond_false, cond_true, if_true, if_false,
        Bool.true_eq_false, Bool.false_eq_true, List.length_cons]
      omega

/-- The rows `deleteOldTransfers` removes are, as a set, exactly the first
`n` rows of the database arrangement (`n` the clamped excess). -/
theorem rows_filter_take_perm (s : Store) (arr : List Transfer) (n : Nat)
    (hIds : (s.rows.map (fun r => r.id)).Nodup) (hperm : arr.Perm s.rows) :
    (s.rows.filter (fun r => decide (r.id ∈ (arr.take n).map (fun r => r.id)))).Perm
      (arr.take n) := by
  have hnd_rows : s.rows.Nodup := hIds.of_map
  have hnd_arr : arr.Nodup := hperm.nodup_iff.mpr hnd_rows
  have hnd_take : (arr.take n).Nodup := (List.take_sublist n arr).nodup hnd_arr
  have hnd_filter : (s.rows.filter (fun r =>
      decide (r.id ∈ (arr.take n).map (fun r => r.id)))).Nodup :=
    (List.filter_sublist s.rows).nodup hnd_rows
  rw [List.perm_ext_iff_of_nodup hnd_filter hnd_take]
  intro a
  simp only [List.mem_filter, decide_eq_true_eq, List.mem_map]
  constructor
  · rintro ⟨ha_rows, t, ht, hid⟩
    have ht_rows : t ∈ s.rows := hperm.subset ((List.take_subset n arr) ht)
    have heq : t = a := List.inj_on_of_nodup_map hIds ht_rows ha_rows hid
    exact heq ▸ ht
  · intro ha_take
    have ha_rows : a ∈ s.rows := hperm.subset ((List.take_subset n arr) ha_take)
    exact ⟨ha_rows, a, ha_take, rfl⟩

/-- Row count after retention: `length - min excess length` (so `length` when
the cap is not exceeded, `cap` when it is and the cap is non-negative). -/
theorem retention_length (maxSize : Int) (s : Store) (arr : List Transfer)
    (hIds : IdsOk s) (hAdm : admissibleArr s arr) :
    (deleteOldTransfersWith maxSize s arr).rows.length
      = s.rows.length - min ((s.rows.length : Int) - maxSize).toNat s.rows.length := by
  by_cases h : (s.rows.length : Int) - maxSize > 0
  · rw [retention_pos arr h]
    set n := ((s.rows.length : Int) - maxSize).toNat with hn
    have hperm := rows_filter_take_perm s arr n hIds.1 hAdm.1
    have hlen_take : (arr.take n).length = min n s.rows.length := by
      rw [List.length_take, hAdm.1.length_eq]
    have hflen : (s.rows.filter (fun r =>
        decide (r.id ∈ (arr.take n).map (fun r => r.id)))).length = min n s.rows.length := by
      rw [hperm.length_eq, hlen_take]
    show (s.rows.filter (fun r => !(decide (r.id ∈ (arr.take n).map (fun r => r.id))))).length
      = s.rows.length - min n s.rows.length
    rw [length_filter_not, hflen]
  · rw [retention_nonpos arr h]
    have hz : ((s.rows.length : Int) - maxSize).toNat = 0 := by omega
    rw [hz]
    omega

/-- When the row count is within `max cap 0`, retention deletes nothing. -/
theorem retention_noop (maxSize : Int) (s : Store) (arr : List Transfer)
    (hAdm : admissibleArr s arr) (h : (s.rows.length : Int) ≤ max maxSize 0) :
    deleteOldTransfersWith maxSize s arr = s := by
  by_cases hx : (s.rows.length : Int) - maxSize > 0
  · have hcap : maxSize < 0 := by
      by_contra hc
      push_neg at hc
      have : max maxSize 0 = maxSize := by omega
      omega
    have hlen : s.rows.length = 0 := by
      have : max maxSize 0 = 0 := by omega
      omega
    have hrows : s.rows = [] := List.length_eq_zero.mp hlen
    have harr : arr = [] := by
      have := hAdm.1
      rw [hrows] at this
      exact this.eq_nil
    rw [retention_pos arr hx, harr]
    unfold deleteByIds
    cases s with
    | mk rows nextId =>
      simp only at hrows
      subst hrows
      rfl
  · exact retention_nonpos arr hx

/-- Every deleted row's `block` is at most every retained row's `block`. -/
theorem retention_deleted_le (maxSize : Int) (s : Store) (arr : List Transfer)
    (hIds : IdsOk s) (hAdm : admissibleArr s arr) :
    ∀ d ∈ s.rows, d ∉ (deleteOldTransfersWith maxSize s arr).rows →
      ∀ kr ∈ (deleteOldTransfersWith maxSize s arr).rows, d.data.block ≤ kr.data.block := by
  intro d hd hdel kr hkr
  by_cases hx : (s.rows.length : Int) - maxSize > 0
  · set n := ((s.rows.length : Int) - maxSize).toNat with hn
    rw [retention_pos arr hx] at hdel hkr
    unfold deleteByIds at hdel hkr
    simp only [List.mem_filter, Bool.not_eq_true', decide_eq_false_iff_not] at hdel hkr
    have hd_take : d ∈ arr.take n := by
      by_contra hmem
      refine hdel ⟨hd, ?_⟩
      intro hc
      obtain ⟨t, ht, hid⟩ := List.mem_map.mp hc
      have ht_rows : t ∈ s.rows := hAdm.1.subset ((List.take_subset n arr) ht)
      have : t = d := List.inj_on_of_nodup_map hIds.1 ht_rows hd hid
      exact hmem (this ▸ ht)
    have hkr_arr : kr ∈ arr := hAdm.1.mem_iff.mpr hkr.1
    have hkr_drop : kr ∈ arr.drop n := by
      have hsplitmem : kr ∈ arr.take n ++ arr.drop n := by
        rw [List.take_append_drop]
        exact hkr_arr
      rcases List.mem_append.mp hsplitmem with h | h
      · exact absurd (List.mem_map_of_mem (fun r => r.id) h) (by simpa using hkr.2)
      · exact h
    have hpw := sortedByBlock_pairwise arr hAdm.2
    rw [← List.take_append_drop n arr] at hpw
    exact (List.pairwise_append.mp hpw).2.2 d hd_take kr hkr_drop
  · rw [retention_nonpos arr hx] at hdel
    exact absurd hd hdel

/-- Retention keeps the frontier: with a positive cap, the maximal stored
block is unchanged. -/
theorem retention_frontier (maxSize : Int) (s : Store) (arr : List Transfer)
    (hIds : IdsOk s) (hAdm : admissibleArr s arr) (hcap : 0 < maxSize) :
    lastIndexedBlockNum (deleteOldTransfersWith maxSize s arr) = lastIndexedBlockNum s := by
  by_cases hx : (s.rows.length : Int) - maxSize > 0
  · set n := ((s.rows.length : Int) - maxSize).toNat with hn
    have hlen_arr : arr.length = s.rows.length := hAdm.1.length_eq
    have hn_lt : n < arr.length := by omega
    have hdrop_ne : arr.drop n ≠ [] := by
      intro hc
      have := List.length_drop n arr  ▸ congrArg List.length hc
      simp [List.length_drop] at this
      omega
    have harr_ne : arr ≠ [] := by
      intro hc
      rw [hc] at hn_lt
      simp at hn_lt
    set lastRow := (arr.drop n).getLast hdrop_ne with hlr
    have hlast_mem_drop : lastRow ∈ arr.drop n := List.getLast_mem hdrop_ne
    have hlast_arr : lastRow ∈ arr := (List.drop_subset n arr) hlast_mem_drop
    have hlast_rows : lastRow ∈ s.rows := hAdm.1.subset hlast_arr
    have hnd_arr : arr.Nodup := hAdm.1.nodup_iff.mpr hIds.1.of_map
    have hnd_split : (arr.take n ++ arr.drop n).Nodup := by
      rw [List.take_append_drop]
      exact hnd_arr
    have hlast_not_take : lastRow ∉ arr.take n := by
      intro hc
      have hdisj := List.nodup_append.mp hnd_split
      exact hdisj.2.2 hc hlast_mem_drop
    have hpw := sortedByBlock_pairwise arr hAdm.2
    have hpw_split : (arr.take n ++ arr.drop n).Pairwise
        (fun a b => a.data.block ≤ b.data.block) := by
      rw [List.take_append_drop]
      exact hpw
    have hub : ∀ r ∈ s.rows, r.data.block ≤ lastRow.data.block := by
      intro r hr
      have hr_arr : r ∈ arr := hAdm.1.mem_iff.mpr hr
      have hr_split : r ∈ arr.take n ++ arr.drop n := by
        rw [List.take_append_drop]
        exact hr_arr
      rcases List.mem_append.mp hr_split with hrt | hrd
      · exact (List.pairwise_append.mp hpw_split).2.2 r hrt lastRow hlast_mem_drop
      · exact sortedByBlock_getLast_ub (arr.drop n) (sortedByBlock_drop n arr hAdm.2)
          hdrop_ne r hrd
    have hkept : lastRow ∈ (deleteOldTransfersWith maxSize s arr).rows := by
      rw [retention_pos arr hx]
      unfold deleteByIds
      simp only [List.mem_filter, Bool.not_eq_true', decide_eq_false_iff_not]
      refine ⟨hlast_rows, ?_⟩
      intro hc
      obtain ⟨t, ht, hid⟩ := List.mem_map.mp hc
      have ht_rows : t ∈ s.rows := hAdm.1.subset ((List.take_subset n arr) ht)
      have : t = lastRow := List.inj_on_of_nodup_map hIds.1 ht_rows hlast_rows hid
      exact hlast_not_take (this ▸ ht)
    have h1 : lastIndexedBlockNum (deleteOldTransfersWith maxSize s arr)
        = lastRow.data.block := by
      refine lastIndexedBlockNum_eq_of _ lastRow hkept ?_
      intro r hr
      exact hub r ((retention_rows_sublist maxSize s arr).subset hr)
    have h2 : lastIndexedBlockNum s = lastRow.data.block :=
      lastIndexedBlockNum_eq_of s lastRow hlast_rows hub
    rw [h1, h2]
  · rw [retention_nonpos arr hx]

/-- Fuel-indexed structural twin of `scanLoop` (used to evaluate the loop on
concrete inputs; `scanLoop_eq_fuel` shows it computes the same function for
sufficient fuel). -/
def scanLoopF (c : Chain) (chunkSize maxSize lastIndexed : Int) :
    Nat → Int → Int → Store → Int × Store × List ChunkRec
  | 0, transferCount, _, s => (transferCount, s, [])
  | fuel + 1, transferCount, toBlock, s =>
    if transferCount < maxSize ∧ windowFrom chunkSize lastIndexed toBlock ≤ toBlock then
      let rest := scanLoopF c chunkSize maxSize lastIndexed fuel
        (transferCount + (chunkDecoded c (windowFrom chunkSize lastIndexed toBlock) toBlock).length)
        (windowFrom chunkSize lastIndexed toBlock - 1)
        (createManySkipDup s (chunkDecoded c (windowFrom chunkSize lastIndexed toBlock) toBlock))
      (rest.1, rest.2.1,
        ⟨windowFrom chunkSize lastIndexed toBlock, toBlock,
          chunkDecoded c (windowFrom chunkSize lastIndexed toBlock) toBlock⟩ :: rest.2.2)
    else
      (transferCount, s, [])

theorem scanLoop_eq_fuel (c : Chain) (C N L : Int) : ∀ (cnt toB : Int) (s : Store)
    (fuel : Nat), (toB + 1 - L).toNat ≤ fuel →
    scanLoop c C N L cnt toB s = scanLoopF c C N L fuel cnt toB s := by
  intro cnt toB s
  induction cnt, toB, s using scanLoop.induct c C N L with
  | case1 cnt toB s h ih =>
    intro fuel hfuel
    have hwf_ge : L + 1 ≤ windowFrom C L toB := le_max_left _ _
    have hwf_le : windowFrom C L toB ≤ toB := h.2
    obtain ⟨f, rfl⟩ : ∃ f, fuel = f + 1 := ⟨fuel - 1, by omega⟩
    rw [scanLoop, dif_pos h, scanLoopF, if_pos h]
    dsimp only
    rw [ih f (by omega)]
  | case2 cnt toB s h =>
    intro fuel hfuel
    rw [scanLoop, dif_neg h]
    cases fuel with
    | zero => rw [scanLoopF]
    | succ f => rw [scanLoopF, if_neg h]

theorem fetchLogs_def (cfg : Cfg) (c : Chain) (s : Store) :
    fetchLogs cfg c s = scanLoop c cfg.chunkSize cfg.maxIndexerSize
      (lastIndexedBlockNum s) 0 (c.head - cfg.confirmations) s := rfl

/-- Concrete-evaluation form of `fetchLogs`. -/
theorem fetchLogs_eval (cfg : Cfg) (c : Chain) (s : Store) (fuel : Nat)
    (h : (c.head - cfg.confirmations + 1 - lastIndexedBlockNum s).toNat ≤ fuel) :
    fetchLogs cfg c s = scanLoopF c cfg.chunkSize cfg.maxIndexerSize
      (lastIndexedBlockNum s) fuel 0 (c.head - cfg.confirmations) s := by
  rw [fetchLogs_def]
  exact scanLoop_eq_fuel c cfg.chunkSize cfg.maxIndexerSize (lastIndexedBlockNum s)
    0 (c.head - cfg.confirmations) s fuel h

/-! ### Decoding lemmas -/

theorem decodeOne_spec {c : Chain} {l : Log} {d : TransferData} (h : decodeOne c l = some d) :
    d.block = l.blockNumber ∧ d.key = l.key ∧
      ∃ b, c.blockAt l.blockNumber = some b ∧ d.blockHash = b.hash := by
  unfold decodeOne decodeOneE at h
  cases hp : l.parsed with
  | none => rw [hp] at h; simp at h
  | some ftv =>
    obtain ⟨f, t, v⟩ := ftv
    rw [hp] at h
    cases hb : c.blockAt l.blockNumber with
    | none => rw [hb] at h; simp at h
    | some b =>
      rw [hb] at h
      simp only [Option.some.injEq] at h
      subst h
      exact ⟨rfl, rfl, b, rfl, rfl⟩

theorem mem_getLogs {c : Chain} {l : Log} {fromB toB : Int} :
    l ∈ getLogs c fromB toB ↔ l ∈ c.logs ∧ fromB ≤ l.blockNumber ∧ l.blockNumber ≤ toB := by
  simp [getLogs, List.mem_filter]

theorem mem_chunkDecoded {c : Chain} {d : TransferData} {fromB toB : Int} :
    d ∈ chunkDecoded c fromB toB ↔
      ∃ l ∈ c.logs, decodeOne c l = some d ∧ fromB ≤ l.blockNumber ∧ l.blockNumber ≤ toB := by
  unfold chunkDecoded
  rw [List.mem_filterMap]
  constructor
  · rintro ⟨l, hl, hd⟩
    obtain ⟨hlog, h1, h2⟩ := mem_getLogs.mp hl
    exact ⟨l, hlog, hd, h1, h2⟩
  · rintro ⟨l, hlog, hd, h1, h2⟩
    exact ⟨l, mem_getLogs.mpr ⟨hlog, h1, h2⟩, hd⟩

theorem insertOne_length_le (s : Store) (d : TransferData) :
    (insertOne s d).rows.length ≤ s.rows.length + 1 := by
  by_cases hk : s.hasKey d.key = true
  · rw [insertOne_of_hasKey hk]; omega
  · rw [insertOne_of_fresh hk]; simp

theorem createMany_length_le : ∀ (ds : List TransferData) (s : Store),
    (createManySkipDup s ds).rows.length ≤ s.rows.length + ds.length := by
  intro ds
  induction ds with
  | nil => intro s; simp [createMany_nil]
  | cons d t ih =>
    intro s
    rw [createMany_cons]
    have h1 := ih (insertOne s d)
    have h2 := insertOne_length_le s d
    simp only [List.length_cons]
    omega

/-! ### Scan loop lemmas -/

/-- The scan only appends rows; every appended row's payload comes from some
processed chunk's decoded records. -/
theorem scanLoop_rows (c : Chain) (C N L : Int) : ∀ (cnt toB : Int) (s : Store),
    ∃ tail, (scanLoop c C N L cnt toB s).2.1.rows = s.rows ++ tail ∧
      ∀ r ∈ tail, ∃ ch ∈ (scanLoop c C N L cnt toB s).2.2, r.data ∈ ch.decoded := by
  intro cnt toB s
  induction cnt, toB, s using scanLoop.induct c C N L with
  | case1 cnt toB s h ih =>
    rw [scanLoop, dif_pos h]
    dsimp only
    obtain ⟨tail1, htail1, hmem1⟩ :=
      createMany_rows (chunkDecoded c (windowFrom C L toB) toB) s
    obtain ⟨tail2, htail2, hmem2⟩ := ih
    refine ⟨tail1 ++ tail2, ?_, ?_⟩
    · rw [htail2, htail1, List.append_assoc]
    · intro r hr
      rcases List.mem_append.mp hr with h1 | h2
      · exact ⟨⟨windowFrom C L toB, toB, chunkDecoded c (windowFrom C L toB) toB⟩,
          List.mem_cons_self _ _, hmem1 r h1⟩
      · obtain ⟨ch, hch, hd⟩ := hmem2 r h2
        exact ⟨ch, List.mem_cons_of_mem _ hch, hd⟩
  | case2 cnt toB s h =>
    rw [scanLoop, dif_neg h]
    exact ⟨[], by simp, fun r hr => absurd hr (List.not_mem_nil r)⟩

theorem scanLoop_idsOk (c : Chain) (C N L : Int) : ∀ (cnt toB : Int) (s : Store),
    IdsOk s → IdsOk (scanLoop c C N L cnt toB s).2.1 := by
  intro cnt toB s
  induction cnt, toB, s using scanLoop.induct c C N L with
  | case1 cnt toB s h ih =>
    intro hs
    rw [scanLoop, dif_pos h]
    dsimp only
    exact ih (createMany_idsOk _ s hs)
  | case2 cnt toB s h =>
    intro hs
    rw [scanLoop, dif_neg h]
    exact hs

theorem scanLoop_keysOk (c : Chain) (C N L : Int) : ∀ (cnt toB : Int) (s : Store),
    KeysOk s → KeysOk (scanLoop c C N L cnt toB s).2.1 := by
  intro cnt toB s
  induction cnt, toB, s using scanLoop.induct c C N L with
  | case1 cnt toB s h ih =>
    intro hs
    rw [scanLoop, dif_pos h]
    dsimp only
    exact ih (createMany_keysOk _ s hs)
  | case2 cnt toB s h =>
    intro hs
    rw [scanLoop, dif_neg h]
    exact hs

theorem scanLoop_hasKey_mono (c : Chain) (C N L : Int) : ∀ (cnt toB : Int) (s : Store)
    (k : String × Nat), s.hasKey k = true → (scanLoop c C N L cnt toB s).2.1.hasKey k = true := by
  intro cnt toB s
  induction cnt, toB, s using scanLoop.induct c C N L with
  | case1 cnt toB s h ih =>
    intro k hk
    rw [scanLoop, dif_pos h]
    dsimp only
    exact ih k (createMany_hasKey_mono _ s k hk)
  | case2 cnt toB s h =>
    intro k hk
    rw [scanLoop, dif_neg h]
    exact hk

/-- Shape of the processed chunks: each window's `fromBlock` is computed by
the source formula from its `toBlock`, windows are non-empty and below the
initial `toBlock`, consecutive windows abut (`next.toBlock = cur.fromBlock - 1`),
and the first window's `toBlock` is the initial `toBlock`. -/
theorem scanLoop_chunks_shape (c : Chain) (C N L : Int) : ∀ (cnt toB : Int) (s : Store),
    (∀ ch ∈ (scanLoop c C N L cnt toB s).2.2,
        ch.fromBlock = windowFrom C L ch.toBlock ∧ ch.fromBlock ≤ ch.toBlock ∧
        ch.toBlock ≤ toB ∧ ch.decoded = chunkDecoded c ch.fromBlock ch.toBlock) ∧
      List.Chain' (fun a b => b.toBlock = a.fromBlock - 1) (scanLoop c C N L cnt toB s).2.2 ∧
      (∀ ch, (scanLoop c C N L cnt toB s).2.2.head? = some ch → ch.toBlock = toB) := by
  intro cnt toB s
  induction cnt, toB, s using scanLoop.induct c C N L with
  | case1 cnt toB s h ih =>
    rw [scanLoop, dif_pos h]
    dsimp only
    obtain ⟨ih1, ih2, ih3⟩ := ih
    refine ⟨?_, ?_, ?_⟩
    · intro ch hch
      rcases List.mem_cons.mp hch with rfl | hch'
      · exact ⟨rfl, h.2, le_refl _, rfl⟩
      · obtain ⟨e1, e2, e3, e4⟩ := ih1 ch hch'
        have hwf : windowFrom C L toB ≤ toB := h.2
        exact ⟨e1, e2, by omega, e4⟩
    · rw [List.chain'_cons']
      refine ⟨?_, ih2⟩
      intro b hb
      exact ih3 b hb
    · intro ch hch
      simp only [List.head?_cons, Option.some.injEq] at hch
      subst hch
      rfl
  | case2 cnt toB s h =>
    rw [scanLoop, dif_neg h]
    refine ⟨fun ch hch => absurd hch (List.not_mem_nil ch), List.chain'_nil, ?_⟩
    intro ch hch
    simp at hch

/-- Windows of one scan are pairwise disjoint (no block is fetched twice). -/
theorem scanLoop_chunks_disjoint (c : Chain) (C N L : Int) : ∀ (cnt toB : Int) (s : Store),
    (scanLoop c C N L cnt toB s).2.2.Pairwise (fun a b => b.toBlock < a.fromBlock) := by
  intro cnt toB s
  induction cnt, toB, s using scanLoop.induct c C N L with
  | case1 cnt toB s h ih =>
    rw [scanLoop, dif_pos h]
    dsimp only
    refine List.Pairwise.cons ?_ ih
    intro ch hch
    have hshape := (scanLoop_chunks_shape c C N L
      (cnt + ((chunkDecoded c (windowFrom C L toB) toB).length : Int))
      (windowFrom C L toB - 1)
      (createManySkipDup s (chunkDecoded c (windowFrom C L toB) toB))).1 ch hch
    show ch.toBlock < windowFrom C L toB
    omega
  | case2 cnt toB s h =>
    rw [scanLoop, dif_neg h]
    exact List.Pairwise.nil

/-- Final counter: the initial counter plus the decoded-record count of every
processed chunk; and the quota check held at entry to every iteration, i.e.
each proper prefix of the chunk list has total decoded count < `N` (above the
initial counter). -/
theorem scanLoop_count (c : Chain) (C N L : Int) : ∀ (cnt toB : Int) (s : Store),
    (scanLoop c C N L cnt toB s).1
      = cnt + ((scanLoop c C N L cnt toB s).2.2.map
          (fun ch => (ch.decoded.length : Int))).sum ∧
      ∀ pre ch post, (scanLoop c C N L cnt toB s).2.2 = pre ++ ch :: post →
        cnt + (pre.map (fun ch => (ch.decoded.length : Int))).sum < N := by
  intro cnt toB s
  induction cnt, toB, s using scanLoop.induct c C N L with
  | case1 cnt toB s h ih =>
    rw [scanLoop, dif_pos h]
    dsimp only
    obtain ⟨ih1, ih2⟩ := ih
    constructor
    · rw [ih1]
      simp only [List.map_cons, List.sum_cons]
      ring
    · intro pre ch post hsplit
      cases pre with
      | nil =>
        simp only [List.map_nil, List.sum_nil, add_zero]
        exact h.1
      | cons p0 pre' =>
        simp only [List.cons_append, List.cons.injEq] at hsplit
        obtain ⟨rfl, hrest⟩ := hsplit
        have := ih2 pre' ch post hrest
        simp only [List.map_cons, List.sum_cons]
        omega
  | case2 cnt toB s h =>
    rw [scanLoop, dif_neg h]
    refine ⟨by simp, ?_⟩
    intro pre ch post hsplit
    exact absurd hsplit (by simp)

/-- The `toBlock` value the loop would use next, read off the chunk list. -/
def nextTo (toB : Int) (chunks : List ChunkRec) : Int :=
  match chunks.getLast? with
  | none => toB
  | some ch => ch.fromBlock - 1

/-- At exit the while-condition is false for the next window. -/
theorem scanLoop_exit (c : Chain) (C N L : Int) : ∀ (cnt toB : Int) (s : Store),
    ¬((scanLoop c C N L cnt toB s).1 < N ∧
      windowFrom C L (nextTo toB (scanLoop c C N L cnt toB s).2.2)
        ≤ nextTo toB (scanLoop c C N L cnt toB s).2.2) := by
  intro cnt toB s
  induction cnt, toB, s using scanLoop.induct c C N L with
  | case1 cnt toB s h ih =>
    rw [scanLoop, dif_pos h]
    dsimp only
    have hnext : ∀ chunks : List ChunkRec,
        nextTo toB (⟨windowFrom C L toB, toB, chunkDecoded c (windowFrom C L toB) toB⟩ :: chunks)
          = nextTo (windowFrom C L toB - 1) chunks := by
      intro chunks
      cases chunks with
      | nil => rfl
      | cons x xs =>
        unfold nextTo
        rw [List.getLast?_cons_cons]
        cases hlast : (x :: xs).getLast? with
        | none => simp at hlast
        | some ch => rfl
    rw [hnext]
    exact ih
  | case2 cnt toB s h =>
    rw [scanLoop, dif_neg h]
    exact h

/-- When no decodable log lies in `(L, toB]`, the scan does not change the
store at all. -/
theorem scanLoop_noop (c : Chain) (C N L : Int) : ∀ (cnt toB : Int) (s : Store),
    (∀ l ∈ c.logs, ∀ d, decodeOne c l = some d →
      ¬(L < l.blockNumber ∧ l.blockNumber ≤ toB)) →
    (scanLoop c C N L cnt toB s).2.1 = s := by
  intro cnt toB s
  induction cnt, toB, s using scanLoop.induct c C N L with
  | case1 cnt toB s h ih =>
    intro hno
    rw [scanLoop, dif_pos h]
    dsimp only
    have hempty : chunkDecoded c (windowFrom C L toB) toB = [] := by
      unfold chunkDecoded
      rw [List.filterMap_eq_nil_iff]
      intro l hl
      obtain ⟨hlog, h1, h2⟩ := mem_getLogs.mp hl
      cases hd : decodeOne c l with
      | none => rfl
      | some d =>
        have hwf : L + 1 ≤ windowFrom C L toB := le_max_left _ _
        exact absurd ⟨by omega, h2⟩ (hno l hlog d hd)
    rw [hempty] at ih ⊢
    rw [createMany_nil] at ih
    have hmono : ∀ l ∈ c.logs, ∀ d, decodeOne c l = some d →
        ¬(L < l.blockNumber ∧ l.blockNumber ≤ windowFrom C L toB - 1) := by
      intro l hlog d hd hc
      have hwf : windowFrom C L toB ≤ toB := h.2
      exact hno l hlog d hd ⟨hc.1, by omega⟩
    exact ih hmono
  | case2 cnt toB s h =>
    intro _
    rw [scanLoop, dif_neg h]

/-- Every record decoded in some chunk ends with its natural key present in
the final store. -/
theorem scanLoop_key_complete (c : Chain) (C N L : Int) : ∀ (cnt toB : Int) (s : Store),
    ∀ ch ∈ (scanLoop c C N L cnt toB s).2.2, ∀ d ∈ ch.decoded,
      (scanLoop c C N L cnt toB s).2.1.hasKey d.key = true := by
  intro cnt toB s
  induction cnt, toB, s using scanLoop.induct c C N L with
  | case1 cnt toB s h ih =>
    rw [scanLoop, dif_pos h]
    dsimp only
    intro ch hch d hd
    rcases List.mem_cons.mp hch with rfl | hch'
    · exact scanLoop_hasKey_mono c C N L _ _ _ d.key
        (createMany_hasKey_of_mem _ s d hd)
    · exact ih ch hch' d hd
  | case2 cnt toB s h =>
    rw [scanLoop, dif_neg h]
    intro ch hch
    exact absurd hch (List.not_mem_nil ch)

/-- Store growth is bounded by the total decoded count. -/
theorem scanLoop_length_le (c : Chain) (C N L : Int) : ∀ (cnt toB : Int) (s : Store),
    ((scanLoop c C N L cnt toB s).2.1.rows.length : Int)
      ≤ s.rows.length + ((scanLoop c C N L cnt toB s).2.2.map
          (fun ch => (ch.decoded.length : Int))).sum := by
  intro cnt toB s
  induction cnt, toB, s using scanLoop.induct c C N L with
  | case1 cnt toB s h ih =>
    rw [scanLoop, dif_pos h]
    dsimp only
    have h1 := createMany_length_le (chunkDecoded c (windowFrom C L toB) toB) s
    simp only [List.map_cons, List.sum_cons]
    have hsum : (0 : Int) ≤ (((scanLoop c C N L
        (cnt + ((chunkDecoded c (windowFrom C L toB) toB).length : Int))
        (windowFrom C L toB - 1)
        (createManySkipDup s (chunkDecoded c (windowFrom C L toB) toB))).2.2.map
          (fun ch => (ch.decoded.length : Int))).sum) := by
      refine List.sum_nonneg ?_
      intro x hx
      obtain ⟨ch, _, rfl⟩ := List.mem_map.mp hx
      positivity
    push_cast at ih h1 ⊢
    omega
  | case2 cnt toB s h =>
    rw [scanLoop, dif_neg h]
    simp

/-! ### Window coverage (gap-freeness) -/

/-- For chunk lists with non-empty abutting windows, the covered blocks are
exactly the interval from the last window's `fromBlock` to the first
window's `toBlock`. -/
theorem chained_cover : ∀ (chunks : List ChunkRec),
    (∀ ch ∈ chunks, ch.fromBlock ≤ ch.toBlock) →
    List.Chain' (fun a b => b.toBlock = a.fromBlock - 1) chunks →
    ∀ hd lst, chunks.head? = some hd → chunks.getLast? = some lst →
    ∀ b : Int, (∃ ch ∈ chunks, ch.fromBlock ≤ b ∧ b ≤ ch.toBlock) ↔
      (lst.fromBlock ≤ b ∧ b ≤ hd.toBlock) := by
  intro chunks
  induction chunks with
  | nil =>
    intro _ _ hd lst hhd
    simp at hhd
  | cons x rest ih =>
    intro hshape hchain hd lst hhd hlst b
    simp only [List.head?_cons, Option.some.injEq] at hhd
    subst hhd
    cases hrest : rest with
    | nil =>
      subst hrest
      simp only [List.getLast?_singleton, Option.some.injEq] at hlst
      subst hlst
      constructor
      · rintro ⟨ch, hch, h1, h2⟩
        simp only [List.mem_singleton] at hch
        subst hch
        exact ⟨h1, h2⟩
      · intro hb
        exact ⟨x, List.mem_singleton.mpr rfl, hb.1, hb.2⟩
    | cons y rest' =>
      subst hrest
      have hlst' : (y :: rest').getLast? = some lst := by
        rw [← hlst, List.getLast?_cons_cons]
      have hchain' : List.Chain' (fun a b => b.toBlock = a.fromBlock - 1) (y :: rest') :=
        (List.chain'_cons'.mp hchain).2
      have hrel : y.toBlock = x.fromBlock - 1 :=
        (List.chain'_cons'.mp hchain).1 y rfl
      have hshape' : ∀ ch ∈ y :: rest', ch.fromBlock ≤ ch.toBlock :=
        fun ch hch => hshape ch (List.mem_cons_of_mem x hch)
      have hih := ih hshape' hchain' y lst rfl hlst'
      have hlst_le : lst.fromBlock ≤ y.toBlock := by
        have hlst_mem : lst ∈ y :: rest' := by
          have := List.getLast?_eq_getLast (y :: rest') (List.cons_ne_nil y rest')
          rw [this] at hlst'
          simp only [Option.some.injEq] at hlst'
          rw [← hlst']
          exact List.getLast_mem _
        have hcov : ∃ ch ∈ y :: rest', ch.fromBlock ≤ lst.fromBlock ∧
            lst.fromBlock ≤ ch.toBlock :=
          ⟨lst, hlst_mem, le_refl _, hshape' lst hlst_mem⟩
        exact ((hih lst.fromBlock).mp hcov).2
      constructor
      · rintro ⟨ch, hch, h1, h2⟩
        rcases List.mem_cons.mp hch with rfl | hch'
        · refine ⟨?_, h2⟩
          omega
        · have := (hih b).mp ⟨ch, hch', h1, h2⟩
          have hhd_shape := hshape x (List.mem_cons_self _ _)
          exact ⟨this.1, by omega⟩
      · rintro ⟨h1, h2⟩
        by_cases hcase : x.fromBlock ≤ b
        · exact ⟨x, List.mem_cons_self _ _, hcase, h2⟩
        · have hble : b ≤ y.toBlock := by omega
          obtain ⟨ch, hch, hc1, hc2⟩ := (hih b).mpr ⟨h1, hble⟩
          exact ⟨ch, List.mem_cons_of_mem x hch, hc1, hc2⟩

/-! ### Unfolding equations for `fetchWithRetry` -/

theorem fetchWithRetry_eq_ok {E A : Type} (attempts : Nat → Except E A) (rand : Nat → ℚ)
    (k retries : Nat) (delay : ℚ) (a : A) (h : attempts k = .ok a) :
    fetchWithRetry attempts rand k retries delay = ([], .ok a) := by
  conv_lhs => rw [fetchWithRetry]
  rw [h]

theorem fetchWithRetry_eq_err_zero {E A : Type} (attempts : Nat → Except E A) (rand : Nat → ℚ)
    (k : Nat) (delay : ℚ) (e : E) (h : attempts k = .error e) :
    fetchWithRetry attempts rand k 0 delay = ([], .error e) := by
  conv_lhs => rw [fetchWithRetry]
  rw [h]

theorem fetchWithRetry_eq_err_succ {E A : Type} (attempts : Nat → Except E A) (rand : Nat → ℚ)
    (k r : Nat) (delay : ℚ) (e : E) (h : attempts k = .error e) :
    fetchWithRetry attempts rand k (r + 1) delay =
      ((delay * 2 + rand k * 300) :: (fetchWithRetry attempts rand (k + 1) r (delay * 2)).1,
        (fetchWithRetry attempts rand (k + 1) r (delay * 2)).2) := by
  conv_lhs => rw [fetchWithRetry]
  rw [h]

/-- The wait imposed before the `(j+2)`-nd call, when the calls up to it fail:
`delay * 2 ^ (j+1)` plus the jitter drawn after the `(j+1)`-st failure. -/
theorem fetchWithRetry_wait_eq {E A : Type} (attempts : Nat → Except E A) (rand : Nat → ℚ) :
    ∀ (j k retries m : Nat) (delay : ℚ),
      (∀ i < m, ∃ e, attempts (k + i) = .error e) → m ≤ retries → j < m →
      (fetchWithRetry attempts rand k retries delay).1.get? j
        = some (delay * 2 ^ (j + 1) + rand (k + j) * 300) := by
  intro j
  induction j with
  | zero =>
    intro k retries m delay hfail hm hj
    obtain ⟨e, he⟩ := hfail 0 hj
    have he' : attempts k = .error e := by simpa using he
    obtain ⟨r, rfl⟩ : ∃ r, retries = r + 1 := ⟨retries - 1, by omega⟩
    rw [fetchWithRetry_eq_err_succ attempts rand k r delay e he']
    simp only [List.get?_cons_zero, Nat.add_zero, zero_add, pow_one]
  | succ j ih =>
    intro k retries m delay hfail hm hj
    obtain ⟨e, he⟩ := hfail 0 (by omega)
    have he' : attempts k = .error e := by simpa using he
    obtain ⟨r, rfl⟩ : ∃ r, retries = r + 1 := ⟨retries - 1, by omega⟩
    rw [fetchWithRetry_eq_err_succ attempts rand k r delay e he']
    have hshift : ∀ i < m - 1, ∃ e2, attempts (k + 1 + i) = .error e2 := by
      intro i hi
      obtain ⟨e2, he2⟩ := hfail (i + 1) (by omega)
      refine ⟨e2, ?_⟩
      rw [show k + 1 + i = k + (i + 1) by omega]
      exact he2
    have hm1 : m - 1 ≤ r := by omega
    have hj1 : j < m - 1 := by omega
    have hrec := ih (k + 1) r (m - 1) (delay * 2) hshift hm1 hj1
    simp only [List.get?_cons_succ]
    rw [hrec, show k + 1 + j = k + (j + 1) by omega]
    congr 2
    ring

/-- Success at the `(m+1)`-st call after `m` failures: the successful value is
returned and exactly `m` waits were imposed (none after the success). -/
theorem fetchWithRetry_ok_eq {E A : Type} (attempts : Nat → Except E A) (rand : Nat → ℚ) :
    ∀ (m k retries : Nat) (delay : ℚ) (a : A),
      (∀ i < m, ∃ e, attempts (k + i) = .error e) → attempts (k + m) = .ok a →
      m ≤ retries →
      (fetchWithRetry attempts rand k retries delay).2 = .ok a ∧
        (fetchWithRetry attempts rand k retries delay).1.length = m := by
  intro m
  induction m with
  | zero =>
    intro k retries delay a _ hok _
    have hok' : attempts k = .ok a := by simpa using hok
    rw [fetchWithRetry_eq_ok attempts rand k retries delay a hok']
    exact ⟨rfl, rfl⟩
  | succ m ih =>
    intro k retries delay a hfail hok hm
    obtain ⟨e, he⟩ := hfail 0 (by omega)
    have he' : attempts k = .error e := by simpa using he
    obtain ⟨r, rfl⟩ : ∃ r, retries = r + 1 := ⟨retries - 1, by omega⟩
    rw [fetchWithRetry_eq_err_succ attempts rand k r delay e he']
    have hshift : ∀ i < m, ∃ e2, attempts (k + 1 + i) = .error e2 := by
      intro i hi
      obtain ⟨e2, he2⟩ := hfail (i + 1) (by omega)
      refine ⟨e2, ?_⟩
      rw [show k + 1 + i = k + (i + 1) by omega]
      exact he2
    have hok1 : attempts (k + 1 + m) = .ok a := by
      rw [show k + 1 + m = k + (m + 1) by omega]
      exact hok
    have hrec := ih (k + 1) r (delay * 2) a hshift hok1 (by omega)
    exact ⟨hrec.1, by simp [hrec.2]⟩

/-- When every call in the budget fails, the error of the **last** call is the
one re-raised. -/
theorem fetchWithRetry_err_eq {E A : Type} (attempts : Nat → Except E A) (rand : Nat → ℚ) :
    ∀ (retries k : Nat) (delay : ℚ) (es : Nat → E),
      (∀ i ≤ retries, attempts (k + i) = .error (es i)) →
      (fetchWithRetry attempts rand k retries delay).2 = .error (es retries) := by
  intro retries
  induction retries with
  | zero =>
    intro k delay es hfail
    have h0 : attempts k = .error (es 0) := by simpa using hfail 0 (by omega)
    rw [fetchWithRetry_eq_err_zero attempts rand k delay (es 0) h0]
  | succ r ih =>
    intro k delay es hfail
    have h0 : attempts k = .error (es 0) := by simpa using hfail 0 (by omega)
    rw [fetchWithRetry_eq_err_succ attempts rand k r delay (es 0) h0]
    exact ih (k + 1) (delay * 2) (fun i => es (i + 1))
      (fun i hi => by
        have := hfail (i + 1) (by omega)
        simpa [Nat.add_assoc, Nat.add_comm 1 i] using this)

/-- **C4.** For a wrapped `ChainClient` call whose first calls fail, the wait
imposed before the `(j+2)`-nd call (the retry following `j+1` failures, i.e.
retry attempt `k = j + 2` of the claim, so that `2 ^ (j + 1) = 2 ^ (k - 1)`)
equals `1000 * 2 ^ (j+1)` milliseconds plus a jitter in `[0, 300)` drawn from
the random stream; `initialDelay = 1000` and `jitterCeiling = 300` are the
implementation's constants.  Uniformity of `Math.random()` itself is a
property of the modelled random source `rand`, constrained to `[0, 1)`. -/
theorem c4_retry_backoff {E A : Type} (attempts : Nat → Except E A) (rand : Nat → ℚ)
    (m : Nat) (hr : ∀ i, 0 ≤ rand i ∧ rand i < 1)
    (hf : ∀ i < m, ∃ e, attempts i = .error e) (hm : m ≤ 5) :
    ∀ j < m, ∃ jitter : ℚ, 0 ≤ jitter ∧ jitter < 300 ∧
      (retryCall attempts rand).1.get? j = some (1000 * 2 ^ (j + 1) + jitter) := by
  intro j hj
  refine ⟨rand j * 300, ?_, ?_, ?_⟩
  · exact mul_nonneg (hr j).1 (by norm_num)
  · have := (hr j).2
    nlinarith
  · have := fetchWithRetry_wait_eq attempts rand j 0 5 m 1000
      (fun i hi => by simpa using hf i hi) hm hj
    simpa [retryCall] using this

/-- Witness for C4 at a concrete always-failing call and `rand = 1/2`. -/
theorem c4_retry_backoff_witness :
    ∃ jitter : ℚ, 0 ≤ jitter ∧ jitter < 300 ∧
      (retryCall (fun _ => (.error 0 : Except Nat Nat)) (fun _ => (1 : ℚ) / 2)).1.get? 0
        = some (1000 * 2 ^ (0 + 1) + jitter) :=
  c4_retry_backoff (fun _ => (.error 0 : Except Nat Nat)) (fun _ => (1 : ℚ) / 2) 2
    (fun _ => by norm_num) (fun i _ => ⟨0, rfl⟩) (by norm_num) 0 (by norm_num)

/-- **C5.** With the implementation's budget (`retries = 5`, six calls): if the
calls before the `(m+1)`-st fail and the `(m+1)`-st succeeds (`m ≤ 5`), the
successful result is returned and exactly `m` waits were imposed — none after
the success; if all six calls fail, the error re-raised is that of the last
call (`es 5`), not an earlier one. -/
theorem c5_retry_result {E A : Type} (attempts : Nat → Except E A) (rand : Nat → ℚ) :
    (∀ (m : Nat) (a : A), (∀ i < m, ∃ e, attempts i = .error e) → attempts m = .ok a →
      m ≤ 5 → (retryCall attempts rand).2 = .ok a ∧ (retryCall attempts rand).1.length = m) ∧
    (∀ es : Nat → E, (∀ i ≤ 5, attempts i = .error (es i)) →
      (retryCall attempts rand).2 = .error (es 5)) := by
  constructor
  · intro m a hfail hok hm
    have := fetchWithRetry_ok_eq attempts rand m 0 5 1000 a
      (fun i hi => by simpa using hfail i hi) (by simpa using hok) hm
    simpa [retryCall] using this
  · intro es hfail
    have := fetchWithRetry_err_eq attempts rand 5 0 1000 es
      (fun i hi => by simpa using hfail i hi)
    simpa [retryCall] using this

/-- Witness for C5: success at the third call returns that value after exactly
two waits, and an always-failing call re-raises the last error. -/
theorem c5_retry_result_witness :
    ((retryCall (fun k => if k < 2 then (.error 7 : Except Nat Nat) else .ok 41)
        (fun _ => (1 : ℚ) / 2)).2 = .ok 41 ∧
      (retryCall (fun k => if k < 2 then (.error 7 : Except Nat Nat) else .ok 41)
        (fun _ => (1 : ℚ) / 2)).1.length = 2) ∧
    (retryCall (fun k => (.error k : Except Nat Nat)) (fun _ => (1 : ℚ) / 2)).2 = .error 5 :=
  ⟨(c5_retry_result (fun k => if k < 2 then (.error 7 : Except Nat Nat) else .ok 41)
      (fun _ => (1 : ℚ) / 2)).1 2 41
      (fun i hi => ⟨7, by simp [hi]⟩) (by norm_num) (by norm_num),
    (c5_retry_result (fun k => (.error k : Except Nat Nat)) (fun _ => (1 : ℚ) / 2)).2
      (fun i => i) (fun i _ => rfl)⟩

/-! ### Cycle-level lemmas (towards idempotence) -/

theorem keysOk_sub {s t : Store} (h : t.rows.Sublist s.rows) (hk : KeysOk s) : KeysOk t :=
  (h.map _).nodup hk

theorem idsOk_sub {s t : Store} (hrows : t.rows.Sublist s.rows) (hnid : t.nextId = s.nextId)
    (hi : IdsOk s) : IdsOk t :=
  ⟨(hrows.map _).nodup hi.1, fun r hr => hnid ▸ hi.2 r (hrows.subset hr)⟩

theorem allDerived_sub {c : Chain} {s t : Store} (h : ∀ r ∈ t.rows, r ∈ s.rows)
    (hd : AllDerived c s) : AllDerived c t :=
  fun r hr => hd r (h r hr)

/-- A derived row's chain block is still reported with the stored hash, so on
a store whose rows all agree with the current chain view `handleReorgs` is a
no-op. -/
theorem handleReorgs_of_derived {c : Chain} {s : Store} (hd : AllDerived c s) :
    handleReorgs c s = s := by
  unfold handleReorgs
  cases hp : getLastIndexedBlock s with
  | none => rfl
  | some last =>
    obtain ⟨l, hl, hdec⟩ := hd last (pickFrontier_mem s.rows last hp)
    obtain ⟨hblock, _, b, hb, hhash⟩ := decodeOne_spec hdec
    show (match c.blockAt last.data.block with
      | none => deleteWhereBlockGte s last.data.block
      | some b =>
        if b.hash ≠ last.data.blockHash then deleteWhereBlockGte s last.data.block else s) = s
    rw [hblock, hb]
    simp [hhash]

theorem scanLoop_allDerived (c : Chain) (C N L : Int) (cnt toB : Int) (s : Store)
    (h : AllDerived c s) : AllDerived c (scanLoop c C N L cnt toB s).2.1 := by
  obtain ⟨tail, htail, hprov⟩ := scanLoop_rows c C N L cnt toB s
  intro r hr
  rw [htail] at hr
  rcases List.mem_append.mp hr with h1 | h2
  · exact h r h1
  · obtain ⟨ch, hch, hdata⟩ := hprov r h2
    have hshape := (scanLoop_chunks_shape c C N L cnt toB s).1 ch hch
    rw [hshape.2.2.2] at hdata
    obtain ⟨l, hl, hdec, _, _⟩ := mem_chunkDecoded.mp hdata
    exact ⟨l, hl, hdec⟩

/-- Every row of the scan result is either an old row or a derived row whose
block lies in `[L + 1, toB]`. -/
theorem scanLoop_new_block_bounds (c : Chain) (C N L : Int) (cnt toB : Int) (s : Store) :
    ∀ r ∈ (scanLoop c C N L cnt toB s).2.1.rows,
      r ∈ s.rows ∨ (L + 1 ≤ r.data.block ∧ r.data.block ≤ toB) := by
  obtain ⟨tail, htail, hprov⟩ := scanLoop_rows c C N L cnt toB s
  intro r hr
  rw [htail] at hr
  rcases List.mem_append.mp hr with h1 | h2
  · exact Or.inl h1
  · right
    obtain ⟨ch, hch, hdata⟩ := hprov r h2
    obtain ⟨e1, e2, e3, e4⟩ := (scanLoop_chunks_shape c C N L cnt toB s).1 ch hch
    rw [e4] at hdata
    obtain ⟨l, _, hdec, hb1, hb2⟩ := mem_chunkDecoded.mp hdata
    have hblock := (decodeOne_spec hdec).1
    have hge : L + 1 ≤ ch.fromBlock := by
      rw [e1]
      exact le_max_left _ _
    constructor
    · omega
    · omega

/-- The frontier never moves down during a scan. -/
theorem scanLoop_lastIdx_ge (c : Chain) (C N : Int) (cnt toB : Int) (s : Store) (L : Int)
    (hLdef : L = lastIndexedBlockNum s) :
    L ≤ lastIndexedBlockNum (scanLoop c C N L cnt toB s).2.1 := by
  obtain ⟨tail, htail, hprov⟩ := scanLoop_rows c C N L cnt toB s
  cases hp : pickFrontier s.rows with
  | none =>
    have hrows : s.rows = [] := (pickFrontier_eq_none s.rows).mp hp
    have hL0 : L = 0 := by
      rw [hLdef, lastIndexedBlockNum_of_rows_nil hrows]
    cases htails : tail with
    | nil =>
      have hres : (scanLoop c C N L cnt toB s).2.1.rows = [] := by
        rw [htail, hrows, htails]
        rfl
      have hz := lastIndexedBlockNum_of_rows_nil hres
      omega
    | cons r0 rest =>
      have hr0 : r0 ∈ (scanLoop c C N L cnt toB s).2.1.rows := by
        rw [htail, htails]
        exact List.mem_append.mpr (Or.inr (List.mem_cons_self _ _))
      rcases scanLoop_new_block_bounds c C N L cnt toB s r0 hr0 with h1 | h2
      · rw [hrows] at h1
        exact absurd h1 (List.not_mem_nil r0)
      · have hub2 := lastIndexedBlockNum_ub _ r0 hr0
        omega
  | some tstar =>
    have htmem : tstar ∈ (scanLoop c C N L cnt toB s).2.1.rows := by
      rw [htail]
      exact List.mem_append.mpr (Or.inl (pickFrontier_mem s.rows tstar hp))
    have hub := lastIndexedBlockNum_ub _ tstar htmem
    have hLt : L = tstar.data.block := by
      rw [hLdef]
      unfold lastIndexedBlockNum getLastIndexedBlock
      rw [hp]
    omega

/-- A scan producing no chunks leaves everything unchanged. -/
theorem scanLoop_eq_of_chunks_nil (c : Chain) (C N L : Int) (cnt toB : Int) (s : Store)
    (h : (scanLoop c C N L cnt toB s).2.2 = []) :
    scanLoop c C N L cnt toB s = (cnt, s, []) := by
  by_cases hguard : cnt < N ∧ windowFrom C L toB ≤ toB
  · rw [scanLoop, dif_pos hguard] at h
    exact absurd h (by simp)
  · rw [scanLoop, dif_neg hguard]

/-- A scan producing no chunks had its while-condition false at entry. -/
theorem scanLoop_guard_false_of_chunks_nil (c : Chain) (C N L : Int) (cnt toB : Int)
    (s : Store) (h : (scanLoop c C N L cnt toB s).2.2 = []) :
    ¬(cnt < N ∧ windowFrom C L toB ≤ toB) := by
  intro hguard
  rw [scanLoop, dif_pos hguard] at h
  exact absurd h (by simp)

/-- On a key-complete chain-derived store, a key hit pins down the row: the
row carrying a decodable log's key holds exactly that log's decoded payload. -/
theorem derived_row_eq {c : Chain} {t : Store} (hwf : ChainWf c) (hder : AllDerived c t)
    {l : Log} {d : TransferData} (hl : l ∈ c.logs) (hd : decodeOne c l = some d)
    (hk : t.hasKey d.key = true) : ∃ r ∈ t.rows, r.data = d := by
  obtain ⟨r, hr, hkey⟩ := (hasKey_true_iff t d.key).mp hk
  obtain ⟨l2, hl2, hdec2⟩ := hder r hr
  have hkey2 : r.data.key = Log.key l2 := (decodeOne_spec hdec2).2.1
  have hkeyd : d.key = Log.key l := (decodeOne_spec hd).2.1
  have hkeq : Log.key l2 = Log.key l := by rw [← hkey2, hkey, hkeyd]
  have hleq : l2 = l := List.inj_on_of_nodup_map hwf hl2 hl hkeq
  subst hleq
  rw [hd] at hdec2
  simp only [Option.some.injEq] at hdec2
  exact ⟨r, hr, hdec2.symm⟩

/-- After one full scan-and-retention pass over an unchanged chain view, a
second scan leaves the store untouched: every decodable log above the new
frontier was already keyed into the store (or no such log exists), so every
chunk of the second scan inserts nothing. -/
theorem scan_twice_noop (c : Chain) (C N safe : Int) (s : Store) (arr1 : List Transfer)
    (hwf : ChainWf c) (hder : AllDerived c s) (hids : IdsOk s)
    (hadm1 : admissibleArr (scanLoop c C N (lastIndexedBlockNum s) 0 safe s).2.1 arr1) :
    (scanLoop c C N
        (lastIndexedBlockNum (deleteOldTransfersWith N
          (scanLoop c C N (lastIndexedBlockNum s) 0 safe s).2.1 arr1)) 0 safe
        (deleteOldTransfersWith N
          (scanLoop c C N (lastIndexedBlockNum s) 0 safe s).2.1 arr1)).2.1
      = deleteOldTransfersWith N
          (scanLoop c C N (lastIndexedBlockNum s) 0 safe s).2.1 arr1 := by
  set L := lastIndexedBlockNum s with hLdef
  set s2 := (scanLoop c C N L 0 safe s).2.1 with hs2def
  set s1 := deleteOldTransfersWith N s2 arr1 with hs1def
  set L1 := lastIndexedBlockNum s1 with hL1def
  have hids2 : IdsOk s2 := by
    rw [hs2def]
    exact scanLoop_idsOk c C N L 0 safe s hids
  have hder2 : AllDerived c s2 := by
    rw [hs2def]
    exact scanLoop_allDerived c C N L 0 safe s hder
  by_cases hN0 : (0 : Int) < N
  · have hL1eq : L1 = lastIndexedBlockNum s2 := by
      rw [hL1def, hs1def]
      exact retention_frontier N s2 arr1 hids2 hadm1 hN0
    by_cases hnil : (scanLoop c C N L 0 safe s).2.2 = []
    · -- the first scan fetched nothing: same entry guard fails again
      have hmain : scanLoop c C N L 0 safe s = (0, s, []) :=
        scanLoop_eq_of_chunks_nil c C N L 0 safe s hnil
      have hguard1 : ¬((0 : Int) < N ∧ windowFrom C L safe ≤ safe) :=
        scanLoop_guard_false_of_chunks_nil c C N L 0 safe s hnil
      have hs2eq : s2 = s := by rw [hs2def, hmain]
      have hL1L : L1 = L := by
        rw [hL1eq, hs2eq]
      have hguard2 : ¬((0 : Int) < N ∧ windowFrom C L1 safe ≤ safe) := by
        rw [hL1L]
        exact hguard1
      rw [scanLoop, dif_neg hguard2]
    · -- the first scan fetched a non-empty contiguous region up to `safe`
      have hshape := scanLoop_chunks_shape c C N L 0 safe s
      have hexit := scanLoop_exit c C N L 0 safe s
      have hcount := scanLoop_count c C N L 0 safe s
      have hkeycomp := scanLoop_key_complete c C N L 0 safe s
      obtain ⟨hd, rest, hchunks⟩ :
          ∃ hd rest, (scanLoop c C N L 0 safe s).2.2 = hd :: rest := by
        cases hc : (scanLoop c C N L 0 safe s).2.2 with
        | nil => exact absurd hc hnil
        | cons a b => exact ⟨a, b, rfl⟩
      obtain ⟨pre, lst, hsplit⟩ :
          ∃ pre lastCh, (scanLoop c C N L 0 safe s).2.2 = pre ++ [lastCh] :=
        ⟨_, _, (List.dropLast_append_getLast hnil).symm⟩
      have hhd_mem : hd ∈ (scanLoop c C N L 0 safe s).2.2 := by
        rw [hchunks]
        exact List.mem_cons_self _ _
      have hhd : hd.toBlock = safe := hshape.2.2 hd (by rw [hchunks]; rfl)
      have hhd_shape := hshape.1 hd hhd_mem
      have hCpos : (1 : Int) ≤ C := by
        have h1 : windowFrom C L hd.toBlock ≤ hd.toBlock := by
          rw [← hhd_shape.1]
          exact hhd_shape.2.1
        unfold windowFrom at h1
        have h2 := le_max_right (L + 1) (hd.toBlock - C + 1)
        omega
      have hlst_mem : lst ∈ (scanLoop c C N L 0 safe s).2.2 := by
        rw [hsplit]
        exact List.mem_append.mpr (Or.inr (List.mem_singleton.mpr rfl))
      have hlst_shape := hshape.1 lst hlst_mem
      have hlstq : (scanLoop c C N L 0 safe s).2.2.getLast? = some lst := by
        rw [hsplit]
        exact List.getLast?_concat _
      have hnextTo : nextTo safe (scanLoop c C N L 0 safe s).2.2 = lst.fromBlock - 1 := by
        unfold nextTo
        rw [hlstq]
      rw [hnextTo] at hexit
      have hLle : L ≤ lastIndexedBlockNum s2 := by
        rw [hs2def]
        exact scanLoop_lastIdx_ge c C N 0 safe s L hLdef
      -- the next `fromBlock` is at most one above the new frontier
      have hflast : lst.fromBlock - 1 ≤ L1 := by
        by_cases hcnt : (scanLoop c C N L 0 safe s).1 < N
        · -- window-exhaustion exit
          have hg : ¬(windowFrom C L (lst.fromBlock - 1) ≤ lst.fromBlock - 1) :=
            fun hle => hexit ⟨hcnt, hle⟩
          have hdisj : ¬(L + 1 ≤ lst.fromBlock - 1 ∧
              lst.fromBlock - 1 - C + 1 ≤ lst.fromBlock - 1) := by
            intro hc
            exact hg (max_le hc.1 hc.2)
          omega
        · -- quota exit: the final chunk decoded something at or above its window
          have hpre := hcount.2 pre lst [] (by rw [hsplit])
          have htot := hcount.1
          rw [hsplit] at htot
          simp only [List.map_append, List.sum_append, List.map_cons, List.sum_cons,
            List.map_nil, List.sum_nil, add_zero] at htot
          have hlen_pos : 0 < lst.decoded.length := by omega
          obtain ⟨d0, hd0⟩ := List.exists_mem_of_length_pos hlen_pos
          have hd0' := hd0
          rw [hlst_shape.2.2.2] at hd0'
          obtain ⟨l0, hl0, hdec0, hb01, hb02⟩ := mem_chunkDecoded.mp hd0'
          have hk0 : s2.hasKey d0.key = true := by
            rw [hs2def]
            exact hkeycomp lst hlst_mem d0 hd0
          obtain ⟨r0, hr0, hr0d⟩ := derived_row_eq hwf hder2 hl0 hdec0 hk0
          have hub0 : r0.data.block ≤ lastIndexedBlockNum s2 :=
            lastIndexedBlockNum_ub s2 r0 hr0
          have hblk0 : d0.block = l0.blockNumber := (decodeOne_spec hdec0).1
          rw [hr0d] at hub0
          omega
      -- no decodable log lies strictly above the new frontier and at or below `safe`
      have hnolog : ∀ l ∈ c.logs, ∀ d, decodeOne c l = some d →
          ¬(L1 < l.blockNumber ∧ l.blockNumber ≤ safe) := by
        rintro l hl d hdec ⟨hb1, hb2⟩
        have hcover := chained_cover (scanLoop c C N L 0 safe s).2.2
          (fun ch hch => (hshape.1 ch hch).2.1) hshape.2.1 hd lst
          (by rw [hchunks]; rfl) hlstq l.blockNumber
        obtain ⟨ch, hch, hc1, hc2⟩ := hcover.mpr ⟨by omega, by omega⟩
        have hchshape := hshape.1 ch hch
        have hdmem : d ∈ ch.decoded := by
          rw [hchshape.2.2.2]
          exact mem_chunkDecoded.mpr ⟨l, hl, hdec, hc1, hc2⟩
        have hk : s2.hasKey d.key = true := by
          rw [hs2def]
          exact hkeycomp ch hch d hdmem
        obtain ⟨r, hr, hrd⟩ := derived_row_eq hwf hder2 hl hdec hk
        have hub := lastIndexedBlockNum_ub s2 r hr
        have hblk : d.block = l.blockNumber := (decodeOne_spec hdec).1
        rw [hrd] at hub
        omega
      exact scanLoop_noop c C N L1 0 safe s1 hnolog
  · -- non-positive quota: the while-condition is false immediately
    have hguard2 : ¬((0 : Int) < N ∧ windowFrom C L1 safe ≤ safe) :=
      fun hg => absurd hg.1 (by omega)
    rw [scanLoop, dif_neg hguard2]

/-- **C8.** Under the store/chain agreement the unique index and the scan
maintain — the chain's logs carry pairwise-distinct natural keys, every
stored row decodes from one of the chain's current logs, stored keys are
pairwise distinct and surrogate ids well-formed — one full cycle keeps the
natural keys pairwise distinct (no two records ever share
`(txHash, logIndex)`), and a second cycle against the unchanged chain view
changes nothing at all: the reorg check passes, the duplicate-skipping scan
inserts zero records, and retention deletes nothing, so the store after the
second cycle literally equals the store after the first. -/
theorem c8_idempotent_scan (cfg : Cfg) (c : Chain) (s : Store) (arr1 arr2 : List Transfer)
    (hwf : ChainWf c) (hder : AllDerived c s) (hkeys : KeysOk s) (hids : IdsOk s)
    (hadm1 : admissibleArr (scanStore cfg c s) arr1)
    (hadm2 : admissibleArr (scanStore cfg c (runCycleWith cfg c s arr1)) arr2) :
    KeysOk (runCycleWith cfg c s arr1) ∧
      runCycleWith cfg c (runCycleWith cfg c s arr1) arr2 = runCycleWith cfg c s arr1 := by
  have hreorg1 : handleReorgs c s = s := handleReorgs_of_derived hder
  have hscanStore1 : scanStore cfg c s = (fetchLogs cfg c s).2.1 := by
    unfold scanStore
    rw [hreorg1]
  rw [hscanStore1] at hadm1
  have hrun1 : runCycleWith cfg c s arr1
      = deleteOldTransfersWith cfg.maxIndexerSize (fetchLogs cfg c s).2.1 arr1 := by
    unfold runCycleWith
    rw [hscanStore1]
  have hids2 : IdsOk (fetchLogs cfg c s).2.1 :=
    scanLoop_idsOk c cfg.chunkSize cfg.maxIndexerSize (lastIndexedBlockNum s) 0
      (c.head - cfg.confirmations) s hids
  have hder2 : AllDerived c (fetchLogs cfg c s).2.1 :=
    scanLoop_allDerived c cfg.chunkSize cfg.maxIndexerSize (lastIndexedBlockNum s) 0
      (c.head - cfg.confirmations) s hder
  have hkeys2 : KeysOk (fetchLogs cfg c s).2.1 :=
    scanLoop_keysOk c cfg.chunkSize cfg.maxIndexerSize (lastIndexedBlockNum s) 0
      (c.head - cfg.confirmations) s hkeys
  have hsub1 := retention_rows_sublist cfg.maxIndexerSize (fetchLogs cfg c s).2.1 arr1
  have hkeys1 : KeysOk (deleteOldTransfersWith cfg.maxIndexerSize
      (fetchLogs cfg c s).2.1 arr1) := keysOk_sub hsub1 hkeys2
  have hder1 : AllDerived c (deleteOldTransfersWith cfg.maxIndexerSize
      (fetchLogs cfg c s).2.1 arr1) :=
    allDerived_sub (fun r hr => hsub1.subset hr) hder2
  have hreorg2 : handleReorgs c (deleteOldTransfersWith cfg.maxIndexerSize
      (fetchLogs cfg c s).2.1 arr1) = deleteOldTransfersWith cfg.maxIndexerSize
      (fetchLogs cfg c s).2.1 arr1 := handleReorgs_of_derived hder1
  have hscan2 : (fetchLogs cfg c (deleteOldTransfersWith cfg.maxIndexerSize
      (fetchLogs cfg c s).2.1 arr1)).2.1
      = deleteOldTransfersWith cfg.maxIndexerSize (fetchLogs cfg c s).2.1 arr1 :=
    scan_twice_noop c cfg.chunkSize cfg.maxIndexerSize (c.head - cfg.confirmations)
      s arr1 hwf hder hids hadm1
  have hscanStoreD : scanStore cfg c (deleteOldTransfersWith cfg.maxIndexerSize
      (fetchLogs cfg c s).2.1 arr1)
      = deleteOldTransfersWith cfg.maxIndexerSize (fetchLogs cfg c s).2.1 arr1 := by
    unfold scanStore
    rw [hreorg2, hscan2]
  rw [hrun1, hscanStoreD] at hadm2
  have hlen2 := retention_length cfg.maxIndexerSize (fetchLogs cfg c s).2.1 arr1 hids2 hadm1
  have hlen1 : (((deleteOldTransfersWith cfg.maxIndexerSize
      (fetchLogs cfg c s).2.1 arr1).rows.length : Int)) ≤ max cfg.maxIndexerSize 0 := by
    omega
  have hret2 := retention_noop cfg.maxIndexerSize (deleteOldTransfersWith cfg.maxIndexerSize
    (fetchLogs cfg c s).2.1 arr1) arr2 hadm2 hlen1
  constructor
  · rw [hrun1]
    exact hkeys1
  · rw [hrun1]
    unfold runCycleWith
    rw [hscanStoreD]
    exact hret2

/-! ### Concrete instances used by witnesses and counterexamples -/

/-- `MAX_BLOCKS = 5`, `MAX_INDEXER_SIZE = 1000`, `CONFIRMATIONS = 12` (the
configuration defaults of `fetchLogs`). -/
def exCfg : Cfg := ⟨5, 1000, 12⟩

/-- A store holding one row at block 5 whose natural key is `("t1", 0)`. -/
def c3Store : Store := ⟨[⟨0, ⟨"t1", 0, 5, "h5", "a", "b", 100, 0⟩⟩], 1⟩

/-- A chain whose single Transfer log sits at block 6 and decodes to the
natural key `("t1", 0)` already present in `c3Store`. -/
def c3Chain : Chain :=
  ⟨18, fun b => if b = 6 then some ⟨"h6", 1⟩ else none,
    [⟨"t1", 0, 6, some ("a", "b", 100)⟩]⟩

/-- Ten logs at block 6 with distinct `logIndex`, the last one unparseable. -/
def exLogs9 : List Log :=
  [⟨"t", 0, 6, some ("a", "b", 1)⟩, ⟨"t", 1, 6, some ("a", "b", 1)⟩,
   ⟨"t", 2, 6, some ("a", "b", 1)⟩, ⟨"t", 3, 6, some ("a", "b", 1)⟩,
   ⟨"t", 4, 6, some ("a", "b", 1)⟩, ⟨"t", 5, 6, some ("a", "b", 1)⟩,
   ⟨"t", 6, 6, some ("a", "b", 1)⟩, ⟨"t", 7, 6, some ("a", "b", 1)⟩,
   ⟨"t", 8, 6, some ("a", "b", 1)⟩, ⟨"t", 9, 6, none⟩]

/-- Chain with head 18 and the ten logs of `exLogs9` (safe head 6). -/
def exChain9 : Chain := ⟨18, fun b => if b = 6 then some ⟨"h6", 1⟩ else none, exLogs9⟩

/-- `MAX_INDEXER_SIZE = 2` with the other defaults. -/
def exCfg2 : Cfg := ⟨5, 2, 12⟩

/-- The single chunk the `exCfg2`/`exChain9` scan processes. -/
def c10Chunk : ChunkRec := ⟨2, 6, (getLogs exChain9 2 6).filterMap (decodeOne exChain9)⟩

def emptyStore : Store := ⟨[], 0⟩

/-- A chain whose head is so low that the safe head is below `c3Store`'s
frontier. -/
def lowHeadChain : Chain := ⟨10, fun _ => none, []⟩

/-- A store whose frontier row (block 5) carries hash `"h5old"`. -/
def exReorgStore : Store := ⟨[⟨0, ⟨"t1", 0, 5, "h5old", "a", "b", 100, 0⟩⟩], 1⟩

/-- A chain now reporting hash `"h5new"` at block 5. -/
def exReorgChain : Chain := ⟨18, fun b => if b = 5 then some ⟨"h5new", 1⟩ else none, []⟩

/-- Two rows at the same block 5 with distinct keys and ids 0, 1. -/
def cexStore : Store :=
  ⟨[⟨0, ⟨"ta", 0, 5, "h5", "a", "b", 1, 0⟩⟩, ⟨1, ⟨"tb", 0, 5, "h5", "a", "b", 2, 0⟩⟩], 2⟩

/-- A block-sorted permutation of `cexStore.rows` in which the id-1 row comes
first — an order `ORDER BY "block" ASC` is free to return. -/
def cexArr : List Transfer :=
  [⟨1, ⟨"tb", 0, 5, "h5", "a", "b", 2, 0⟩⟩, ⟨0, ⟨"ta", 0, 5, "h5", "a", "b", 1, 0⟩⟩]

/-- Three rows at blocks 1, 2, 3 (ids 0, 1, 2), already block-sorted. -/
def retStore : Store :=
  ⟨[⟨0, ⟨"u1", 0, 1, "h1", "a", "b", 1, 0⟩⟩, ⟨1, ⟨"u2", 0, 2, "h2", "a", "b", 1, 0⟩⟩,
    ⟨2, ⟨"u3", 0, 3, "h3", "a", "b", 1, 0⟩⟩], 3⟩

def retArr : List Transfer := retStore.rows

/-- Row `i` as the `exCfg`/`exChain9` scan inserts it. -/
def c8Row (i : Nat) : Transfer := ⟨i, ⟨"t", i, 6, "h6", "a", "b", 1, 1000⟩⟩

/-- The store produced by one full cycle over `exChain9` from the empty
store: the nine decodable logs, ids in insertion order. -/
def c8Store : Store :=
  ⟨[c8Row 0, c8Row 1, c8Row 2, c8Row 3, c8Row 4, c8Row 5, c8Row 6, c8Row 7, c8Row 8], 9⟩

/-! ### Claim theorems -/

/-- **C1.** `handleReorgs` runs before any scan write in a cycle: on an empty
store it is a no-op; otherwise, letting `last` be the highest-block stored
row (conjunct two gives that characterisation), if the chain reports no
block at that height or a block whose hash differs from the stored
`blockHash`, then the post-reorg store is exactly the rows with
`block < last.block` — every row with `block >= last.block` is deleted and
no row below it is; and the scan that follows only appends rows, so the
rollback is complete before the first new insert. -/
theorem c1_handle_reorgs_rollback (cfg : Cfg) (c : Chain) (s : Store) :
    (getLastIndexedBlock s = none → handleReorgs c s = s) ∧
    (∀ last, getLastIndexedBlock s = some last →
      (last ∈ s.rows ∧ ∀ r ∈ s.rows, r.data.block ≤ last.data.block) ∧
      ((c.blockAt last.data.block = none ∨
        ∃ b, c.blockAt last.data.block = some b ∧ b.hash ≠ last.data.blockHash) →
        (handleReorgs c s).rows
          = s.rows.filter (fun r => decide (r.data.block < last.data.block)))) ∧
    (∃ tail, (scanStore cfg c s).rows = (handleReorgs c s).rows ++ tail) := by
  refine ⟨?_, ?_, ?_⟩
  · intro h
    simp [handleReorgs, h]
  · intro last hlast
    refine ⟨⟨pickFrontier_mem s.rows last hlast, pickFrontier_ub s.rows last hlast⟩, ?_⟩
    rintro (hnone | ⟨b, hb, hne⟩)
    · simp [handleReorgs, hlast, hnone, deleteWhereBlockGte]
    · simp [handleReorgs, hlast, hb, hne, deleteWhereBlockGte]
  · unfold scanStore
    rw [fetchLogs_def]
    obtain ⟨tail, htail, _⟩ := scanLoop_rows c cfg.chunkSize cfg.maxIndexerSize
      (lastIndexedBlockNum (handleReorgs c s)) 0
      (c.head - cfg.confirmations) (handleReorgs c s)
    exact ⟨tail, htail⟩

/-- Witness for C1: a stored frontier at block 5 with hash `"h5old"` while
the chain reports `"h5new"` — the whole suffix `block >= 5` is rolled back. -/
theorem c1_handle_reorgs_rollback_witness :
    (handleReorgs exReorgChain exReorgStore).rows
      = exReorgStore.rows.filter (fun r => decide (r.data.block < (5 : Int))) :=
  ((c1_handle_reorgs_rollback exCfg exReorgChain exReorgStore).2.1
    ⟨0, ⟨"t1", 0, 5, "h5old", "a", "b", 100, 0⟩⟩ (by decide)).2
    (Or.inr ⟨⟨"h5new", 1⟩, by decide, by decide⟩)

/-- **C2 counterexample.** The retention query orders by `block` only; with
two rows sharing block 5, the arrangement that lists the id-1 row first is an
admissible database answer, and deleting by it does **not** delete the
id-ordered lowest row: the code's outcome differs from the spec's
"ties broken by store-assigned id" selection. -/
theorem c2_retention_tiebreak_cex :
    admissibleArr cexStore cexArr ∧
      deleteOldTransfersWith 1 cexStore cexArr ≠ deleteOldTransfersSpec 1 cexStore := by
  constructor
  · constructor
    · decide
    · decide
  · decide

/-- **C2 (amended).** After retention: if the pre-retention count is within
the cap nothing is deleted; with a non-negative cap the post-retention count
is at most the cap (exactly `count - excess` rows remain in general); and
every deleted row's `block` is at most every retained row's `block` — the
`excess` lowest-block rows are deleted, but ties among equal-block rows are
resolved by the database's unspecified order (the query orders by `block`
only), not necessarily by store-assigned id. -/
theorem c2_retention_amended (maxSize : Int) (s : Store) (arr : List Transfer)
    (hIds : IdsOk s) (hAdm : admissibleArr s arr) :
    ((s.rows.length : Int) ≤ maxSize → deleteOldTransfersWith maxSize s arr = s) ∧
    (0 ≤ maxSize → ((deleteOldTransfersWith maxSize s arr).rows.length : Int) ≤ maxSize) ∧
    ((deleteOldTransfersWith maxSize s arr).rows.length
      = s.rows.length - min ((s.rows.length : Int) - maxSize).toNat s.rows.length) ∧
    (∀ d ∈ s.rows, d ∉ (deleteOldTransfersWith maxSize s arr).rows →
      ∀ kr ∈ (deleteOldTransfersWith maxSize s arr).rows, d.data.block ≤ kr.data.block) := by
  refine ⟨?_, ?_, retention_length maxSize s arr hIds hAdm,
    retention_deleted_le maxSize s arr hIds hAdm⟩
  · intro hle
    exact retention_nonpos arr (by omega)
  · intro hcap
    have hlen := retention_length maxSize s arr hIds hAdm
    omega

/-- Witness for C2 (amended): three rows over cap 1 — exactly two lowest
rows deleted, one left. -/
theorem c2_retention_amended_witness :
    (deleteOldTransfersWith 1 retStore retArr).rows.length = 1 :=
  ((c2_retention_amended 1 retStore retArr ⟨by decide, by decide⟩ ⟨by decide, by decide⟩).2.2.1).trans
    (by decide)

/-- **C3 counterexample.** A decoded record whose natural key `("t1", 0)`
already exists in the store is skipped by the bulk insert (the store is
unchanged), yet the per-cycle counter still increments to 1 — the counter
does **not** accumulate only newly inserted records. -/
theorem c3_counter_counts_duplicates_cex :
    (fetchLogs exCfg c3Chain c3Store).1 = 1 ∧
      (fetchLogs exCfg c3Chain c3Store).2.1.rows = c3Store.rows := by
  have he := fetchLogs_eval exCfg c3Chain c3Store 5 (by decide)
  rw [he]
  exact ⟨by decide, by decide⟩

/-- **C3 (amended).** The per-cycle counter accumulates the number of
successfully decoded records of every chunk (`transferCount +=
validTransfers.length`), counting also records the bulk insert skips as
duplicates; the store grows by at most that counter. -/
theorem c3_counter_amended (cfg : Cfg) (c : Chain) (s : Store) :
    (fetchLogs cfg c s).1
      = ((fetchLogs cfg c s).2.2.map (fun ch => (ch.decoded.length : Int))).sum ∧
    ((fetchLogs cfg c s).2.1.rows.length : Int) ≤ s.rows.length + (fetchLogs cfg c s).1 := by
  rw [fetchLogs_def]
  have hc := (scanLoop_count c cfg.chunkSize cfg.maxIndexerSize (lastIndexedBlockNum s)
    0 (c.head - cfg.confirmations) s).1
  have hl := scanLoop_length_le c cfg.chunkSize cfg.maxIndexerSize (lastIndexedBlockNum s)
    0 (c.head - cfg.confirmations) s
  rw [hc]
  simp only [zero_add]
  refine ⟨trivial, ?_⟩
  omega

/-- **C6.** The scan starts at `toBlock = headHeight() - K` with
`fromBlock = max(L + 1, toBlock - C + 1)` (`L` the highest stored block, 0
when empty): whenever the safe head is below `L` no window is fetched and the
store is untouched, and when any window is fetched the first one is exactly
`[max(L + 1, safeHead - C + 1), safeHead]`. -/
theorem c6_scan_init (cfg : Cfg) (c : Chain) (s : Store) :
    (c.head - cfg.confirmations < lastIndexedBlockNum s →
      fetchLogs cfg c s = (0, s, [])) ∧
    (∀ ch chs, (fetchLogs cfg c s).2.2 = ch :: chs →
      ch.toBlock = c.head - cfg.confirmations ∧
      ch.fromBlock = max (lastIndexedBlockNum s + 1)
        (c.head - cfg.confirmations - cfg.chunkSize + 1)) := by
  constructor
  · intro hlt
    rw [fetchLogs_def, scanLoop]
    have hno : ¬((0 : Int) < cfg.maxIndexerSize ∧
        windowFrom cfg.chunkSize (lastIndexedBlockNum s) (c.head - cfg.confirmations)
          ≤ c.head - cfg.confirmations) := by
      rintro ⟨_, hle⟩
      have := le_max_left (lastIndexedBlockNum s + 1)
        (c.head - cfg.confirmations - cfg.chunkSize + 1)
      unfold windowFrom at hle
      omega
    rw [dif_neg hno]
  · intro ch chs hchunks
    have hshape := scanLoop_chunks_shape c cfg.chunkSize cfg.maxIndexerSize
      (lastIndexedBlockNum s) 0 (c.head - cfg.confirmations) s
    have hhead : (fetchLogs cfg c s).2.2.head? = some ch := by
      rw [hchunks]; rfl
    rw [fetchLogs_def] at hchunks hhead
    have htoB := hshape.2.2 ch hhead
    have hmem : ch ∈ (scanLoop c cfg.chunkSize cfg.maxIndexerSize (lastIndexedBlockNum s)
        0 (c.head - cfg.confirmations) s).2.2 := by
      rw [hchunks]; exact List.mem_cons_self _ _
    have hfrom := (hshape.1 ch hmem).1
    rw [htoB] at hfrom
    exact ⟨htoB, hfrom⟩

/-- Witness for C6: with safe head `-2` below the stored frontier 5 the scan
does nothing; and in a scan that does fetch, the first window is
`[max(L+1, safeHead-C+1), safeHead]` (= `[6, 6]` in the instance). -/
theorem c6_scan_init_witness :
    fetchLogs exCfg lowHeadChain c3Store = (0, c3Store, []) ∧
      ((6 : Int) = 18 - 12 ∧ (6 : Int) = max ((5 : Int) + 1) (18 - 12 - 5 + 1)) := by
  constructor
  · exact (c6_scan_init exCfg lowHeadChain c3Store).1 (by decide)
  · have he := fetchLogs_eval exCfg c3Chain c3Store 5 (by decide)
    have := (c6_scan_init exCfg c3Chain c3Store).2
      ⟨6, 6, [⟨"t1", 0, 6, "h6", "a", "b", 100, 1000⟩]⟩ [] (by rw [he]; decide)
    exact this

/-- **C7.** The fetched windows of one scan are contiguous and descending:
every window satisfies `fromBlock = max(L + 1, toBlock - C + 1)` and
`fromBlock ≤ toBlock`, each next window's `toBlock` is the previous
`fromBlock - 1`, no two windows share a block, and the blocks covered are
exactly the gap-free interval from the last window's `fromBlock` up to the
first window's `toBlock` (the safe head). -/
theorem c7_windows_contiguous (cfg : Cfg) (c : Chain) (s : Store) :
    (∀ ch ∈ (fetchLogs cfg c s).2.2,
      ch.fromBlock = max (lastIndexedBlockNum s + 1) (ch.toBlock - cfg.chunkSize + 1) ∧
        ch.fromBlock ≤ ch.toBlock) ∧
    List.Chain' (fun a b => b.toBlock = a.fromBlock - 1) (fetchLogs cfg c s).2.2 ∧
    (fetchLogs cfg c s).2.2.Pairwise (fun a b => b.toBlock < a.fromBlock) ∧
    (∀ hd lst, (fetchLogs cfg c s).2.2.head? = some hd →
      (fetchLogs cfg c s).2.2.getLast? = some lst →
      ∀ b : Int, (∃ ch ∈ (fetchLogs cfg c s).2.2, ch.fromBlock ≤ b ∧ b ≤ ch.toBlock) ↔
        (lst.fromBlock ≤ b ∧ b ≤ hd.toBlock)) := by
  rw [fetchLogs_def]
  have hshape := scanLoop_chunks_shape c cfg.chunkSize cfg.maxIndexerSize
    (lastIndexedBlockNum s) 0 (c.head - cfg.confirmations) s
  refine ⟨?_, hshape.2.1, ?_, ?_⟩
  · intro ch hch
    obtain ⟨e1, e2, _, _⟩ := hshape.1 ch hch
    exact ⟨e1, e2⟩
  · exact scanLoop_chunks_disjoint c cfg.chunkSize cfg.maxIndexerSize
      (lastIndexedBlockNum s) 0 (c.head - cfg.confirmations) s
  · intro hd lst hhd hlst b
    exact chained_cover _ (fun ch hch => (hshape.1 ch hch).2.1) hshape.2.1
      hd lst hhd hlst b

/-- Witness for C7 at a three-window scan (`[5,6]`, `[3,4]`, `[1,2]`): block
3 is covered, exactly matching the interval bound `1 ≤ 3 ≤ 6`. -/
theorem c7_windows_contiguous_witness :
    (∃ ch ∈ (fetchLogs ⟨2, 1000, 12⟩ ⟨18, fun _ => none, []⟩ emptyStore).2.2,
      ch.fromBlock ≤ (3 : Int) ∧ (3 : Int) ≤ ch.toBlock) ↔
      ((1 : Int) ≤ 3 ∧ (3 : Int) ≤ 6) := by
  have he := fetchLogs_eval ⟨2, 1000, 12⟩ ⟨18, fun _ => none, []⟩ emptyStore 10 (by decide)
  have h := (c7_windows_contiguous ⟨2, 1000, 12⟩ ⟨18, fun _ => none, []⟩ emptyStore).2.2.2
    ⟨5, 6, []⟩ ⟨1, 2, []⟩ (by rw [he]; decide) (by rw [he]; decide) 3
  exact h

/-- **C9.** Per-log failure isolation in a chunk: a log on which the per-log
`try` block fails (`decodeOne` yields `none`, in particular whenever
`decodeOneE` raised an error — the `catch` absorbs every per-log error)
contributes nothing, while all other logs of the chunk are decoded exactly as
they would be without it; no error escapes the per-log decoding. -/
theorem c9_per_log_isolation (c : Chain) :
    (∀ pre (bad : Log) post, decodeOne c bad = none →
      (pre ++ bad :: post).filterMap (decodeOne c)
        = pre.filterMap (decodeOne c) ++ post.filterMap (decodeOne c)) ∧
    (∀ l : Log, (∃ e, decodeOneE c l = .error e) → decodeOne c l = none) := by
  constructor
  · intro pre bad post hbad
    rw [List.filterMap_append, List.filterMap_cons, hbad]
  · rintro l ⟨e, he⟩
    unfold decodeOne
    rw [he]

/-- Witness for C9: dropping the unparseable tenth log leaves the other nine
decodings untouched, and the full scan of the ten-log chunk inserts exactly
9 records. -/
theorem c9_per_log_isolation_witness :
    ((exLogs9.take 9 ++ (⟨"t", 9, 6, none⟩ : Log) :: []).filterMap (decodeOne exChain9)
      = (exLogs9.take 9).filterMap (decodeOne exChain9)
        ++ ([] : List Log).filterMap (decodeOne exChain9)) ∧
    (fetchLogs exCfg exChain9 emptyStore).2.1.rows.length = 9 := by
  constructor
  · exact (c9_per_log_isolation exChain9).1 (exLogs9.take 9) (⟨"t", 9, 6, none⟩ : Log) [] (by decide)
  · have he := fetchLogs_eval exCfg exChain9 emptyStore 10 (by decide)
    rw [he]
    decide

/-- **C10.** The quota is checked only between chunks: at entry to every
iteration the accumulated counter (sum of the decoded counts of the already
processed chunks) is strictly below `MAX_INDEXER_SIZE`, hence the final
counter exceeds the quota by strictly less than the decoded count of the
final chunk; a single cycle can therefore exceed the quota (witness), the
overshoot being trimmed only later by retention. -/
theorem c10_quota_overshoot (cfg : Cfg) (c : Chain) (s : Store) :
    (∀ pre ch post, (fetchLogs cfg c s).2.2 = pre ++ ch :: post →
      (pre.map (fun ch => (ch.decoded.length : Int))).sum < cfg.maxIndexerSize) ∧
    (∀ pre lastCh, (fetchLogs cfg c s).2.2 = pre ++ [lastCh] →
      (fetchLogs cfg c s).1 < cfg.maxIndexerSize + lastCh.decoded.length) := by
  rw [fetchLogs_def]
  have hc := scanLoop_count c cfg.chunkSize cfg.maxIndexerSize (lastIndexedBlockNum s)
    0 (c.head - cfg.confirmations) s
  constructor
  · intro pre ch post hsplit
    have := hc.2 pre ch post hsplit
    omega
  · intro pre lastCh hsplit
    have hbound := hc.2 pre lastCh [] hsplit
    have hcount := hc.1
    rw [hsplit] at hcount
    simp only [List.map_append, List.sum_append, List.map_cons, List.sum_cons,
      List.map_nil, List.sum_nil, add_zero] at hcount
    omega

/-- Witness for C10: with cap 2, a single nine-record chunk drives the store
to 9 records — more than `MAX_INDEXER_SIZE` — while the quota check held at
the iteration's entry (prefix sum 0 < 2). -/
theorem c10_quota_overshoot_witness :
    (([] : List ChunkRec).map (fun ch => (ch.decoded.length : Int))).sum < (2 : Int) ∧
      (fetchLogs exCfg2 exChain9 emptyStore).2.1.rows.length = 9 ∧ (2 : Int) < 9 := by
  have he := fetchLogs_eval exCfg2 exChain9 emptyStore 10 (by decide)
  refine ⟨?_, ?_, by decide⟩
  · exact (c10_quota_overshoot exCfg2 exChain9 emptyStore).1 [] c10Chunk []
      (by rw [he]; decide)
  · rw [he]
    decide

/-- Witness for C8: a full cycle over `exChain9` from the empty store, run
twice with the block-sorted arrangement `c8Store.rows` — keys stay pairwise
distinct and the second cycle returns the first cycle's store unchanged. -/
theorem c8_idempotent_scan_witness :
    KeysOk (runCycleWith exCfg exChain9 emptyStore c8Store.rows) ∧
      runCycleWith exCfg exChain9 (runCycleWith exCfg exChain9 emptyStore c8Store.rows)
          c8Store.rows
        = runCycleWith exCfg exChain9 emptyStore c8Store.rows := by
  have hss1 : scanStore exCfg exChain9 emptyStore = c8Store := by
    unfold scanStore
    have hr0 : handleReorgs exChain9 emptyStore = emptyStore := by decide
    rw [hr0, fetchLogs_eval _ _ _ 10 (by decide)]
    decide
  have hrc1 : runCycleWith exCfg exChain9 emptyStore c8Store.rows = c8Store := by
    unfold runCycleWith
    rw [hss1]
    decide
  have hss2 : scanStore exCfg exChain9 c8Store = c8Store := by
    unfold scanStore
    have hr1 : handleReorgs exChain9 c8Store = c8Store := by decide
    rw [hr1, fetchLogs_eval _ _ _ 10 (by decide)]
    decide
  exact c8_idempotent_scan exCfg exChain9 emptyStore c8Store.rows c8Store.rows
    (by unfold ChainWf; decide)
    (fun r hr => absurd hr (List.not_mem_nil r))
    (by unfold KeysOk; decide)
    (by unfold IdsOk; decide)
    (by rw [hss1]; exact ⟨by decide, by decide⟩)
    (by rw [hrc1, hss2]; exact ⟨by decide, by decide⟩)

end Usdc
